import Mathlib

/-!
# Verification of the greedy-gnomes search algorithms

A shallow embedding of `src/gnomes_algs.hpp` (functions
`greedy_gnomes_exhaustive` and `greedy_gnomes_dyn_prog`) together with the
`grid`/`path` abstractions they use.  The repository does not ship
`gnomes_types.hpp`, so the `grid` and `path` operations are modelled from the
spec (sections 3 and 4.1); every definition taken from the spec carries a
doc comment saying so.  Everything else is transcribed from the source.
-/

set_option maxHeartbeats 1000000

/-- Modelled from the spec: a grid cell (type from the missing
`gnomes_types.hpp`).  A cell is either OPEN, carrying a non-negative gold
value, or ROCK (blocked, never entered, no meaningful value). -/
inductive cell where
  | CELL_OPEN (gold : Nat)
  | CELL_ROCK
  deriving DecidableEq, Repr

/-- Modelled from the spec: move directions of a path (type from the missing
`gnomes_types.hpp`): the START sentinel ("no move taken yet"), RIGHT and
DOWN. -/
inductive step_direction where
  | STEP_DIRECTION_START
  | STEP_DIRECTION_RIGHT
  | STEP_DIRECTION_DOWN
  deriving DecidableEq, Repr

/-- `true` exactly on ROCK cells. -/
def isRock : cell → Bool
  | cell.CELL_ROCK => true
  | cell.CELL_OPEN _ => false

/-- Gold value of a cell: the value of an OPEN cell, 0 for ROCK. -/
def cellGold : cell → Nat
  | cell.CELL_OPEN g => g
  | cell.CELL_ROCK => 0

/-- Modelled from the spec: the immutable grid (class from the missing
`gnomes_types.hpp`), a `rows × columns` board with read-only queries
`rows()`, `columns()`, `get(i,j)`.  Cells are stored row-major; a position
outside the stored lists reads as ROCK (the algorithms only query in-bounds
positions). -/
structure grid where
  rows : Nat
  columns : Nat
  cells : List (List cell)
  deriving DecidableEq, Repr

/-- Modelled from the spec: the read-only cell query `get(i,j)`. -/
def grid.get (g : grid) (i j : Nat) : cell :=
  (g.cells.getD i []).getD j cell.CELL_ROCK

/-- Modelled from the spec: a path bound to one grid, tracking the ordered
move history, the head position `(row, col)` and the accumulated gold. -/
structure path where
  setting : grid
  steps : List step_direction
  row : Nat
  col : Nat
  gold : Nat
  deriving DecidableEq, Repr

/-- Modelled from the spec: the constructor `path(setting)` — head `(0,0)`,
empty move history, gold equal to the start cell's value (0 if the start
cell is blocked). -/
def path.start (setting : grid) : path :=
  ⟨setting, [], 0, 0, cellGold (setting.get 0 0)⟩

/-- Modelled from the spec: `total_gold()` returns the accumulated gold. -/
def path.total_gold (p : path) : Nat := p.gold

/-- Modelled from the spec: `last_step()` returns the most recently appended
move, or the START sentinel when no move has been taken. -/
def path.last_step (p : path) : step_direction :=
  p.steps.getLastD step_direction.STEP_DIRECTION_START

/-- Modelled from the spec: `is_step_valid(direction)` — true iff moving one
cell RIGHT/DOWN from the head stays within grid bounds and the destination
cell is not ROCK. -/
def path.is_step_valid (p : path) (d : step_direction) : Bool :=
  match d with
  | step_direction.STEP_DIRECTION_RIGHT =>
      decide (p.row < p.setting.rows) && decide (p.col + 1 < p.setting.columns) &&
        !(isRock (p.setting.get p.row (p.col + 1)))
  | step_direction.STEP_DIRECTION_DOWN =>
      decide (p.row + 1 < p.setting.rows) && decide (p.col < p.setting.columns) &&
        !(isRock (p.setting.get (p.row + 1) p.col))
  | step_direction.STEP_DIRECTION_START => false

/-- Modelled from the spec: `add_step(direction)` — append the move, advance
the head one cell, and add the destination cell's gold. -/
def path.add_step (p : path) (d : step_direction) : path :=
  match d with
  | step_direction.STEP_DIRECTION_RIGHT =>
      ⟨p.setting, p.steps ++ [d], p.row, p.col + 1,
        p.gold + cellGold (p.setting.get p.row (p.col + 1))⟩
  | step_direction.STEP_DIRECTION_DOWN =>
      ⟨p.setting, p.steps ++ [d], p.row + 1, p.col,
        p.gold + cellGold (p.setting.get (p.row + 1) p.col)⟩
  | step_direction.STEP_DIRECTION_START => p

/-- The guarded move both algorithms perform: take the step when
`is_step_valid` holds, otherwise leave the path unchanged. -/
def stepIfValid (p : path) (d : step_direction) : path :=
  if p.is_step_valid d then p.add_step d else p

/-- One candidate of the exhaustive search (the inner `k` loop, lines 49-69):
decode the `len` low bits of `bits`, least-significant first, 1 = RIGHT and
0 = DOWN, silently skipping invalid single moves. -/
def candidate (setting : grid) (len bits : Nat) : path :=
  (List.range len).foldl
    (fun p k =>
      if (bits >>> k) &&& 1 = 1 then stepIfValid p step_direction.STEP_DIRECTION_RIGHT
      else stepIfValid p step_direction.STEP_DIRECTION_DOWN)
    (path.start setting)

/-- The comparison at lines 70-74: replace `best` when it is still the
sentinel (`last_step() == START`) or the candidate harvests strictly more
gold. -/
def updateBest (best cand : path) : path :=
  if best.last_step = step_direction.STEP_DIRECTION_START ∨
      best.total_gold < cand.total_gold then cand else best

/-- `greedy_gnomes_exhaustive` (lines 30-77): enumerate lengths
`0..rows+columns-2` and bit patterns `0..2^len-1` in increasing order,
keeping the best candidate.  The C++ bound `bits <= pow(2,len)-1` uses
floating-point `pow`: `2^len` is an exactly representable double for every
`len < 64`, and for `len <= 53` so is `2^len - 1`, giving exactly the range
modelled here; for larger `len` the subtraction rounds back to `2^len`, so
the C++ loop runs one extra iteration at `bits = 2^len`, whose low `len`
bits are all 0 — a duplicate of the earlier `bits = 0` candidate of the same
length, which can never change `best` (it is either the zero-move start path
or has the same gold as a candidate already compared). -/
def greedy_gnomes_exhaustive (setting : grid) : path :=
  let max_steps := setting.rows + setting.columns - 2
  (List.range (max_steps + 1)).foldl
    (fun best len =>
      (List.range (2 ^ len)).foldl
        (fun best bits => updateBest best (candidate setting len bits)) best)
    (path.start setting)

/-- `from_above` at lines 107-116: when `i > 0` and `A[i-1][j]` is present,
a copy of that path extended one guarded step DOWN. -/
def from_above (A : Nat → Nat → Option path) (i j : Nat) : Option path :=
  if 0 < i then (A (i - 1) j).map (fun p => stepIfValid p step_direction.STEP_DIRECTION_DOWN)
  else none

/-- `from_left` at lines 117-124: when `j > 0` and `A[i][j-1]` is present,
a copy of that path extended one guarded step RIGHT. -/
def from_left (A : Nat → Nat → Option path) (i j : Nat) : Option path :=
  if 0 < j then (A i (j - 1)).map (fun p => stepIfValid p step_direction.STEP_DIRECTION_RIGHT)
  else none

/-- The body of the table-filling loop (lines 100-145) for one cell: ROCK
cells get an absent entry; otherwise the entry is chosen among
`from_above`/`from_left` (strictly more gold wins, `from_left` on the
`else` branch), and when neither is present the cell keeps its previous
value (relevant only at `(0,0)`, pre-set to `path(setting)`). -/
def dpCell (setting : grid) (A : Nat → Nat → Option path) (i j : Nat) : Option path :=
  if isRock (setting.get i j) then none
  else
    match from_above A i j, from_left A i j with
    | some a, some l => some (if l.total_gold < a.total_gold then a else l)
    | some a, none => some a
    | none, some l => some l
    | none, none => A i j

/-- The table before the loops run (lines 90-93): absent everywhere except
`A[0][0] = path(setting)`. -/
def dpInit (setting : grid) : Nat → Nat → Option path :=
  fun i j => if i = 0 ∧ j = 0 then some (path.start setting) else none

/-- Point update of the table. -/
def dpWrite (A : Nat → Nat → Option path) (i j : Nat) (v : Option path) :
    Nat → Nat → Option path :=
  fun r c => if r = i ∧ c = j then v else A r c

/-- The filled dynamic-programming table (the nested loops at lines 97-148),
row-major. -/
def dpTable (setting : grid) : Nat → Nat → Option path :=
  (List.range setting.rows).foldl
    (fun A i =>
      (List.range setting.columns).foldl
        (fun A j => dpWrite A i j (dpCell setting A i j)) A)
    (dpInit setting)

/-- One comparison of the post-processing scan (lines 156-159).  The C++
dereferences `best` whenever the entry is present; a dereference of an
absent `best` is undefined behaviour, modelled as `none`. -/
def scanStep (best entry : Option path) : Option path :=
  match entry with
  | none => best
  | some p =>
      match best with
      | none => none
      | some b => if b.total_gold < p.total_gold then some p else some b

/-- `greedy_gnomes_dyn_prog` (lines 83-163): fill the table, then scan it
row-major starting from `best = A[0][0]`.  The result is `none` exactly when
the C++ would dereference an absent optional (undefined behaviour). -/
def greedy_gnomes_dyn_prog (setting : grid) : Option path :=
  let A := dpTable setting
  (List.range setting.rows).foldl
    (fun best i =>
      (List.range setting.columns).foldl (fun best j => scanStep best (A i j)) best)
    (A 0 0)

/-! ## Specification-side notions: valid monotone paths

These definitions formalise the claims' phrase "valid monotone path":
a sequence of RIGHT/DOWN moves replayed from `(0,0)`, staying in bounds
and never entering a ROCK cell. -/

/-- Position reached by one move (START leaves the position unchanged). -/
def stepPos (pos : Nat × Nat) (d : step_direction) : Nat × Nat :=
  match d with
  | step_direction.STEP_DIRECTION_RIGHT => (pos.1, pos.2 + 1)
  | step_direction.STEP_DIRECTION_DOWN => (pos.1 + 1, pos.2)
  | step_direction.STEP_DIRECTION_START => pos

/-- All positions visited when the moves are replayed from `pos`
(`pos` itself included). -/
def cellsFrom (pos : Nat × Nat) : List step_direction → List (Nat × Nat)
  | [] => [pos]
  | d :: ms => pos :: cellsFrom (stepPos pos d) ms

/-- Position reached after replaying the moves from `(0,0)`. -/
def replay (ms : List step_direction) : Nat × Nat := ms.foldl stepPos (0, 0)

/-- A position is in bounds and not on a ROCK cell. -/
def okCellB (setting : grid) (pos : Nat × Nat) : Bool :=
  decide (pos.1 < setting.rows) && decide (pos.2 < setting.columns) &&
    !(isRock (setting.get pos.1 pos.2))

/-- An actual move (RIGHT or DOWN), not the START sentinel. -/
def isMove : step_direction → Bool
  | step_direction.STEP_DIRECTION_RIGHT => true
  | step_direction.STEP_DIRECTION_DOWN => true
  | step_direction.STEP_DIRECTION_START => false

/-- A valid monotone path: only RIGHT/DOWN moves, and every visited cell
(the start `(0,0)` included) is in bounds and not ROCK. -/
def validMovesB (setting : grid) (ms : List step_direction) : Bool :=
  ms.all isMove && (cellsFrom (0, 0) ms).all (okCellB setting)

/-- Total gold harvested along a move sequence: the sum of the gold values
of all visited cells, the start included. -/
def movesGold (setting : grid) (ms : List step_direction) : Nat :=
  ((cellsFrom (0, 0) ms).map (fun pos => cellGold (setting.get pos.1 pos.2))).sum

/-- The spec's Validity property for a returned path: every visited cell is
in bounds and not ROCK, and replaying the moves from `(0,0)` reproduces the
reported head position. -/
def pathOkB (p : path) : Bool :=
  validMovesB p.setting p.steps && decide (replay p.steps = (p.row, p.col))

/-! ## Assertion preconditions (lines 33-40 and 86-87) -/

/-- The assertions of `greedy_gnomes_exhaustive` (lines 33-40): non-empty
grid and `max_steps = rows + columns - 2 < 64`. -/
def exhaustiveAssertsOk (setting : grid) : Bool :=
  decide (0 < setting.rows) && decide (0 < setting.columns) &&
    decide (setting.rows + setting.columns - 2 < 64)

/-- The assertions of `greedy_gnomes_dyn_prog` (lines 86-87): non-empty
grid. -/
def dynProgAssertsOk (setting : grid) : Bool :=
  decide (0 < setting.rows) && decide (0 < setting.columns)

/-! ## Helper characterisations

`Atab` is the recursive characterisation of the filled table `dpTable`
(each entry is written once, reading only entries of earlier cells and the
initial value of its own cell); `candList` is the exhaustive search's
candidate sequence in enumeration order. -/

/-- Recursive characterisation of the dynamic-programming table. -/
def Atab (setting : grid) (i j : Nat) : Option path :=
  if isRock (setting.get i j) then none
  else
    let fa : Option path :=
      if h : 0 < i then
        (Atab setting (i - 1) j).map (fun p => stepIfValid p step_direction.STEP_DIRECTION_DOWN)
      else none
    let fl : Option path :=
      if h : 0 < j then
        (Atab setting i (j - 1)).map (fun p => stepIfValid p step_direction.STEP_DIRECTION_RIGHT)
      else none
    match fa, fl with
    | some a, some l => some (if l.total_gold < a.total_gold then a else l)
    | some a, none => some a
    | none, some l => some l
    | none, none => dpInit setting i j
  termination_by (i, j)

/-- All candidates examined by the exhaustive search, in enumeration order:
lengths `0..rows+columns-2` increasing, bit patterns `0..2^len-1`
increasing. -/
def candList (setting : grid) : List path :=
  ((List.range (setting.rows + setting.columns - 2 + 1)).map
    (fun len => (List.range (2 ^ len)).map (candidate setting len))).flatten

/-! ## Concrete grids used by counterexamples and witnesses -/

/-- 2×2 grid `[[1,2],[3,4]]`, the spec's section-8 example (best gold 8). -/
def gEx : grid := ⟨2, 2, [[cell.CELL_OPEN 1, cell.CELL_OPEN 2],
                          [cell.CELL_OPEN 3, cell.CELL_OPEN 4]]⟩

/-- 2×2 all-OPEN zero-gold grid: at cell (1,1) `from_above` and `from_left`
are both present with equal gold. -/
def gTie : grid := ⟨2, 2, [[cell.CELL_OPEN 0, cell.CELL_OPEN 0],
                           [cell.CELL_OPEN 0, cell.CELL_OPEN 0]]⟩

/-- 1×2 all-OPEN zero-gold grid: every candidate of the exhaustive search
has the same total gold. -/
def gFlat : grid := ⟨1, 2, [[cell.CELL_OPEN 0, cell.CELL_OPEN 0]]⟩

/-- 1×2 grid whose start cell is ROCK but whose second cell holds gold. -/
def gRockStart : grid := ⟨1, 2, [[cell.CELL_ROCK, cell.CELL_OPEN 5]]⟩

/-- 1×1 grid whose only cell is ROCK. -/
def gAllRock : grid := ⟨1, 1, [[cell.CELL_ROCK]]⟩

/-! ## Further proof-side helper definitions -/

/-- Every move in the list is playable in turn from `pos`: each successive
destination is in bounds and not ROCK. -/
def okSeqB (setting : grid) : Nat × Nat → List step_direction → Bool
  | _, [] => true
  | pos, d :: ms => okCellB setting (stepPos pos d) && okSeqB setting (stepPos pos d) ms

/-- Replay a whole move list through `add_step` (unguarded). -/
def playMoves (p : path) : List step_direction → path
  | [] => p
  | d :: ms => playMoves (p.add_step d) ms

/-- Encode a move list as the bit pattern the exhaustive search decodes:
bit `k` is 1 iff the `k`-th move is RIGHT. -/
def encodeMoves : List step_direction → Nat
  | [] => 0
  | d :: ms =>
      (if d = step_direction.STEP_DIRECTION_RIGHT then 1 else 0) + 2 * encodeMoves ms

/-- Structural coherence of a path value with its own move history: bound to
`setting`, only RIGHT/DOWN moves recorded, the replayed moves reproduce the
head, and the stored gold is the gold along the visited cells. -/
def goodPath (setting : grid) (p : path) : Prop :=
  p.setting = setting ∧ p.steps.all isMove = true ∧
    replay p.steps = (p.row, p.col) ∧ movesGold setting p.steps = p.gold

/-- All cell indices in row-major order. -/
def cellIdx (setting : grid) : List (Nat × Nat) :=
  ((List.range setting.rows).map
    (fun i => (List.range setting.columns).map (fun j => (i, j)))).flatten

/-- The inner (column) loop of the table fill, writing the first `n` cells
of row `i` starting from table state `A`. -/
def rowFill (setting : grid) (A : Nat → Nat → Option path) (i n : Nat) :
    Nat → Nat → Option path :=
  (List.range n).foldl (fun A j => dpWrite A i j (dpCell setting A i j)) A

/-- The outer (row) loop of the table fill: the first `r` rows, each filled
over all `columns` cells. -/
def tableFill (setting : grid) (r : Nat) : Nat → Nat → Option path :=
  (List.range r).foldl (fun A i => rowFill setting A i setting.columns) (dpInit setting)

/-! ## Theorems -/

/-- C10: the dynamic-programming entry point asserts exactly that the grid is
non-empty; the exhaustive entry point additionally asserts
`rows + columns - 2 < 64`; an assertion fails iff one of these
preconditions is violated, and on a non-empty grid the exhaustive search
fails exactly when `rows + columns - 2 ≥ 64`. -/
theorem assert_preconditions_iff (setting : grid) :
    (dynProgAssertsOk setting = false ↔ ¬ (0 < setting.rows ∧ 0 < setting.columns)) ∧
    (exhaustiveAssertsOk setting = false ↔
      ¬ (0 < setting.rows ∧ 0 < setting.columns ∧
          setting.rows + setting.columns - 2 < 64)) ∧
    (0 < setting.rows ∧ 0 < setting.columns →
      (exhaustiveAssertsOk setting = false ↔ 64 ≤ setting.rows + setting.columns - 2)) := by
  simp only [dynProgAssertsOk, exhaustiveAssertsOk, Bool.and_eq_false_iff,
    decide_eq_false_iff_not, not_and_or, not_lt]
  constructor
  · tauto
  constructor
  · tauto
  · intro h
    omega

/-- C10 witness: the preconditions characterisation at the 2×2 example
grid. -/
theorem assert_preconditions_iff_witness :
    (dynProgAssertsOk gEx = false ↔ ¬ (0 < gEx.rows ∧ 0 < gEx.columns)) ∧
    (exhaustiveAssertsOk gEx = false ↔
      ¬ (0 < gEx.rows ∧ 0 < gEx.columns ∧ gEx.rows + gEx.columns - 2 < 64)) ∧
    (0 < gEx.rows ∧ 0 < gEx.columns →
      (exhaustiveAssertsOk gEx = false ↔ 64 ≤ gEx.rows + gEx.columns - 2)) :=
  assert_preconditions_iff gEx

/-- C4 counterexample: on the all-OPEN zero-gold 2×2 grid, at cell `(1,1)`
both `from_above` and `from_left` are present with equal total gold, yet the
table entry `A[1][1]` is `from_left`, not `from_above` — the tie keeps
`from_left`, refuting the claimed tie-break.  (`dpTable gTie 0 1` and
`dpTable gTie 1 0` are the values `A[0][1]`, `A[1][0]` already held when
`(1,1)` was processed, since earlier cells are never rewritten.) -/
theorem dp_tie_counterexample :
    (from_above (dpTable gTie) 1 1).isSome = true ∧
    (from_left (dpTable gTie) 1 1).isSome = true ∧
    Option.map path.total_gold (from_above (dpTable gTie) 1 1) =
      Option.map path.total_gold (from_left (dpTable gTie) 1 1) ∧
    dpTable gTie 1 1 = from_left (dpTable gTie) 1 1 ∧
    ¬ dpTable gTie 1 1 = from_above (dpTable gTie) 1 1 := by
  decide

/-- C5 counterexample: on the 1×2 all-OPEN zero-gold grid, every candidate
has the same total gold and the first-enumerated candidate is
`candidate gFlat 0 0` (the zero-move path), yet the search returns
`candidate gFlat 1 1`, a different, later-enumerated candidate — so `best`
was replaced by a candidate that was not strictly better, and the returned
path is not the earliest-enumerated candidate of maximal gold. -/
theorem exhaustive_tie_counterexample :
    candList gFlat = [candidate gFlat 0 0, candidate gFlat 1 0, candidate gFlat 1 1] ∧
    (candList gFlat).all
      (fun q => q.total_gold = (greedy_gnomes_exhaustive gFlat).total_gold) = true ∧
    greedy_gnomes_exhaustive gFlat = candidate gFlat 1 1 ∧
    ¬ candidate gFlat 0 0 = candidate gFlat 1 1 := by
  decide

/-- C6 counterexample: on the 1×2 grid `[ROCK, OPEN 5]` — non-empty, small
enough, start cell ROCK — the exhaustive search does not return a zero-move
zero-gold path: it returns a path with last step RIGHT and total gold 5
(`is_step_valid` only inspects the destination cell, so candidates may step
off the blocked start cell). -/
theorem exhaustive_rock_start_counterexample :
    gRockStart.get 0 0 = cell.CELL_ROCK ∧
    0 < gRockStart.rows ∧ 0 < gRockStart.columns ∧
    gRockStart.rows + gRockStart.columns - 2 < 64 ∧
    ¬ (greedy_gnomes_exhaustive gRockStart).last_step =
        step_direction.STEP_DIRECTION_START ∧
    (greedy_gnomes_exhaustive gRockStart).total_gold = 5 := by
  decide

/-- C9 counterexample: on the 1×1 all-ROCK grid — which satisfies both
asserted preconditions — the path returned by the exhaustive search visits
the ROCK cell `(0,0)`, so the validity property fails. -/
theorem validity_counterexample :
    0 < gAllRock.rows ∧ 0 < gAllRock.columns ∧
    gAllRock.rows + gAllRock.columns - 2 < 64 ∧
    pathOkB (greedy_gnomes_exhaustive gAllRock) = false := by
  decide

/-! ### Basic lemmas: move replay, visited cells, gold sums -/

open cell step_direction

theorem cellsFrom_concat (ms : List step_direction) (d : step_direction) :
    ∀ pos, cellsFrom pos (ms ++ [d]) =
      cellsFrom pos ms ++ [stepPos (ms.foldl stepPos pos) d] := by
  induction ms with
  | nil => intro pos; rfl
  | cons m ms ih => intro pos; simp [cellsFrom, ih]

theorem replay_concat (ms : List step_direction) (d : step_direction) :
    replay (ms ++ [d]) = stepPos (replay ms) d := by
  simp [replay, List.foldl_append]

theorem movesGold_concat (setting : grid) (ms : List step_direction) (d : step_direction) :
    movesGold setting (ms ++ [d]) =
      movesGold setting ms +
        cellGold (setting.get (stepPos (replay ms) d).1 (stepPos (replay ms) d).2) := by
  simp [movesGold, cellsFrom_concat, replay]

theorem validMovesB_concat (setting : grid) (ms : List step_direction) (d : step_direction) :
    validMovesB setting (ms ++ [d]) = true ↔
      (validMovesB setting ms = true ∧ isMove d = true ∧
        okCellB setting (stepPos (replay ms) d) = true) := by
  simp only [validMovesB, cellsFrom_concat, List.all_append, List.all_cons, List.all_nil,
    Bool.and_eq_true, replay]
  tauto

theorem foldl_stepPos_mem (ms : List step_direction) :
    ∀ pos, ms.foldl stepPos pos ∈ cellsFrom pos ms := by
  induction ms with
  | nil => intro pos; simp [cellsFrom]
  | cons m ms ih => intro pos; simp only [List.foldl_cons, cellsFrom]; exact List.mem_cons_of_mem _ (ih _)

theorem validMoves_ok_replay (setting : grid) (ms : List step_direction)
    (h : validMovesB setting ms = true) : okCellB setting (replay ms) = true := by
  simp only [validMovesB, Bool.and_eq_true, List.all_eq_true] at h
  exact h.2 _ (foldl_stepPos_mem ms (0, 0))

theorem validMoves_ok_start (setting : grid) (ms : List step_direction)
    (h : validMovesB setting ms = true) : okCellB setting (0, 0) = true := by
  simp only [validMovesB, Bool.and_eq_true, List.all_eq_true] at h
  apply h.2
  cases ms <;> simp [cellsFrom]

theorem okCellB_iff (setting : grid) (pos : Nat × Nat) :
    okCellB setting pos = true ↔
      pos.1 < setting.rows ∧ pos.2 < setting.columns ∧
        isRock (setting.get pos.1 pos.2) = false := by
  simp [okCellB, and_assoc]

theorem foldl_stepPos_coords (ms : List step_direction) :
    ∀ pos, ms.all isMove = true →
      (ms.foldl stepPos pos).1 + (ms.foldl stepPos pos).2 = pos.1 + pos.2 + ms.length := by
  induction ms with
  | nil => intro pos _; simp
  | cons m ms ih =>
    intro pos hm
    simp only [List.all_cons, Bool.and_eq_true] at hm
    have h' := ih (stepPos pos m) hm.2
    cases m with
    | STEP_DIRECTION_START => simp [isMove] at hm
    | STEP_DIRECTION_RIGHT => simp only [List.foldl_cons, List.length_cons]; rw [h']; simp [stepPos]; omega
    | STEP_DIRECTION_DOWN => simp only [List.foldl_cons, List.length_cons]; rw [h']; simp [stepPos]; omega

theorem okSeqB_concat (setting : grid) (ms : List step_direction) (d : step_direction) :
    ∀ pos, okSeqB setting pos (ms ++ [d]) =
      (okSeqB setting pos ms && okCellB setting (stepPos (ms.foldl stepPos pos) d)) := by
  induction ms with
  | nil => intro pos; simp [okSeqB]
  | cons m ms ih => intro pos; simp [okSeqB, ih, Bool.and_assoc]

theorem cellsFrom_all_eq (setting : grid) (ms : List step_direction) :
    ∀ pos, (cellsFrom pos ms).all (okCellB setting) =
      (okCellB setting pos && okSeqB setting pos ms) := by
  induction ms with
  | nil => intro pos; simp [cellsFrom, okSeqB]
  | cons m ms ih => intro pos; simp [cellsFrom, okSeqB, ih, Bool.and_assoc]

theorem validMovesB_eq (setting : grid) (ms : List step_direction) :
    validMovesB setting ms =
      (ms.all isMove && (okCellB setting (0, 0) && okSeqB setting (0, 0) ms)) := by
  simp [validMovesB, cellsFrom_all_eq]

/-! ### Path operation lemmas -/

theorem is_step_valid_right (p : path) :
    p.is_step_valid STEP_DIRECTION_RIGHT = okCellB p.setting (p.row, p.col + 1) := rfl

theorem is_step_valid_down (p : path) :
    p.is_step_valid STEP_DIRECTION_DOWN = okCellB p.setting (p.row + 1, p.col) := rfl

theorem add_step_steps (p : path) (d : step_direction) (hd : isMove d = true) :
    (p.add_step d).steps = p.steps ++ [d] := by
  cases d with
  | STEP_DIRECTION_START => simp [isMove] at hd
  | STEP_DIRECTION_RIGHT => rfl
  | STEP_DIRECTION_DOWN => rfl

theorem add_step_gold_le (p : path) (d : step_direction) :
    p.gold ≤ (p.add_step d).gold := by
  cases d <;> simp [path.add_step]

theorem stepIfValid_gold_le (p : path) (d : step_direction) :
    p.gold ≤ (stepIfValid p d).gold := by
  unfold stepIfValid
  split
  · exact add_step_gold_le p d
  · exact Nat.le_refl _

theorem goodPath_start (setting : grid) : goodPath setting (path.start setting) := by
  refine ⟨rfl, rfl, rfl, ?_⟩
  simp [movesGold, cellsFrom, path.start, grid.get]

theorem goodPath_add_step (setting : grid) (p : path) (d : step_direction)
    (hp : goodPath setting p) (hd : isMove d = true) :
    goodPath setting (p.add_step d) := by
  obtain ⟨hs, hm, hr, hg⟩ := hp
  cases d with
  | STEP_DIRECTION_START => simp [isMove] at hd
  | STEP_DIRECTION_RIGHT =>
    refine ⟨hs, ?_, ?_, ?_⟩
    · simp [path.add_step, List.all_append, hm, isMove]
    · show replay (p.steps ++ [STEP_DIRECTION_RIGHT]) = _
      rw [replay_concat, hr]
      rfl
    · show movesGold setting (p.steps ++ [STEP_DIRECTION_RIGHT]) = _
      rw [movesGold_concat, hg, hr]
      simp [path.add_step, stepPos, hs]
  | STEP_DIRECTION_DOWN =>
    refine ⟨hs, ?_, ?_, ?_⟩
    · simp [path.add_step, List.all_append, hm, isMove]
    · show replay (p.steps ++ [STEP_DIRECTION_DOWN]) = _
      rw [replay_concat, hr]
      rfl
    · show movesGold setting (p.steps ++ [STEP_DIRECTION_DOWN]) = _
      rw [movesGold_concat, hg, hr]
      simp [path.add_step, stepPos, hs]

theorem goodPath_stepIfValid (setting : grid) (p : path) (d : step_direction)
    (hp : goodPath setting p) (hd : isMove d = true) :
    goodPath setting (stepIfValid p d) := by
  unfold stepIfValid
  split
  · exact goodPath_add_step setting p d hp hd
  · exact hp

theorem okSeq_stepIfValid (setting : grid) (p : path) (d : step_direction)
    (hp : goodPath setting p) (hseq : okSeqB setting (0, 0) p.steps = true)
    (hd : isMove d = true) :
    okSeqB setting (0, 0) (stepIfValid p d).steps = true := by
  obtain ⟨hs, hm, hr, hg⟩ := hp
  unfold stepIfValid
  split
  · next hv =>
    rw [add_step_steps p d hd, okSeqB_concat]
    have hfold : p.steps.foldl stepPos (0, 0) = (p.row, p.col) := hr
    rw [hfold]
    cases d with
    | STEP_DIRECTION_START => simp [isMove] at hd
    | STEP_DIRECTION_RIGHT =>
      rw [is_step_valid_right, hs] at hv
      simp only [Bool.and_eq_true]
      exact ⟨hseq, hv⟩
    | STEP_DIRECTION_DOWN =>
      rw [is_step_valid_down, hs] at hv
      simp only [Bool.and_eq_true]
      exact ⟨hseq, hv⟩
  · exact hseq

theorem last_step_eq_start_iff (p : path) (hm : p.steps.all isMove = true) :
    p.last_step = STEP_DIRECTION_START ↔ p.steps = [] := by
  constructor
  · intro h
    rcases List.eq_nil_or_concat p.steps with hnil | ⟨l, d, hcat⟩
    · exact hnil
    · rw [List.concat_eq_append] at hcat
      rw [path.last_step, hcat, List.getLastD_concat] at h
      rw [hcat, h] at hm
      simp [List.all_append, isMove] at hm
  · intro h
    rw [path.last_step, h]
    rfl

/-! ### Candidate lemmas (exhaustive search inner loop) -/

theorem candidate_zero (setting : grid) (bits : Nat) :
    candidate setting 0 bits = path.start setting := rfl

theorem candidate_succ (setting : grid) (len bits : Nat) :
    candidate setting (len + 1) bits =
      (if (bits >>> len) &&& 1 = 1 then
        stepIfValid (candidate setting len bits) STEP_DIRECTION_RIGHT
      else stepIfValid (candidate setting len bits) STEP_DIRECTION_DOWN) := by
  unfold candidate
  rw [List.range_succ, List.foldl_append]
  rfl

theorem candidate_goodPath (setting : grid) (len bits : Nat) :
    goodPath setting (candidate setting len bits) := by
  induction len with
  | zero => exact goodPath_start setting
  | succ n ih =>
    rw [candidate_succ]
    split
    · exact goodPath_stepIfValid setting _ _ ih rfl
    · exact goodPath_stepIfValid setting _ _ ih rfl

theorem candidate_gold_ge (setting : grid) (len bits : Nat) :
    (path.start setting).gold ≤ (candidate setting len bits).gold := by
  induction len with
  | zero => exact Nat.le_refl _
  | succ n ih =>
    rw [candidate_succ]
    split
    · exact Nat.le_trans ih (stepIfValid_gold_le _ _)
    · exact Nat.le_trans ih (stepIfValid_gold_le _ _)

theorem candidate_okSeq (setting : grid) (len bits : Nat) :
    okSeqB setting (0, 0) (candidate setting len bits).steps = true := by
  induction len with
  | zero => rfl
  | succ n ih =>
    rw [candidate_succ]
    split
    · exact okSeq_stepIfValid setting _ _ (candidate_goodPath setting n bits) ih rfl
    · exact okSeq_stepIfValid setting _ _ (candidate_goodPath setting n bits) ih rfl

theorem stepIfValid_empty_eq (p : path) (d : step_direction) (hd : isMove d = true)
    (h : (stepIfValid p d).steps = []) : stepIfValid p d = p ∧ p.steps = [] := by
  unfold stepIfValid at h ⊢
  split at h
  · rw [add_step_steps p d hd] at h
    simp at h
  · exact ⟨by split <;> simp_all, h⟩

theorem candidate_empty_eq_start (setting : grid) (len bits : Nat)
    (h : (candidate setting len bits).steps = []) :
    candidate setting len bits = path.start setting := by
  induction len with
  | zero => rfl
  | succ n ih =>
    by_cases hbit : (bits >>> n) &&& 1 = 1
    · rw [candidate_succ, if_pos hbit] at h ⊢
      obtain ⟨heq, hemp⟩ := stepIfValid_empty_eq _ STEP_DIRECTION_RIGHT rfl h
      rw [heq, ih hemp]
    · rw [candidate_succ, if_neg hbit] at h ⊢
      obtain ⟨heq, hemp⟩ := stepIfValid_empty_eq _ STEP_DIRECTION_DOWN rfl h
      rw [heq, ih hemp]

/-! ### Encoding valid move sequences as bit patterns -/

theorem encodeMoves_lt (ms : List step_direction) : encodeMoves ms < 2 ^ ms.length := by
  induction ms with
  | nil => simp [encodeMoves]
  | cons d ms ih =>
    simp only [encodeMoves, List.length_cons, pow_succ]
    split <;> omega

theorem encodeMoves_bit (ms : List step_direction) :
    ∀ k, k < ms.length →
      (encodeMoves ms >>> k) &&& 1 =
        (if ms.getD k STEP_DIRECTION_START = STEP_DIRECTION_RIGHT then 1 else 0) := by
  induction ms with
  | nil => intro k hk; simp at hk
  | cons d ms ih =>
    intro k hk
    cases k with
    | zero =>
      rw [Nat.shiftRight_zero, Nat.and_one_is_mod]
      simp only [encodeMoves, Nat.add_mul_mod_self_left, List.getD_cons_zero]
      split <;> rfl
    | succ k =>
      rw [Nat.shiftRight_succ_inside, Nat.and_one_is_mod]
      have hdiv : encodeMoves (d :: ms) / 2 = encodeMoves ms := by
        simp only [encodeMoves]
        rw [Nat.add_mul_div_left _ _ (by omega)]
        split <;> simp
      rw [hdiv, ← Nat.and_one_is_mod]
      simp only [List.length_cons] at hk
      rw [ih k (by omega)]
      rfl

theorem candidate_congr (setting : grid) (len : Nat) :
    ∀ bits bits', (∀ k, k < len → (bits >>> k) &&& 1 = (bits' >>> k) &&& 1) →
      candidate setting len bits = candidate setting len bits' := by
  induction len with
  | zero => intro bits bits' _; rfl
  | succ n ih =>
    intro bits bits' h
    rw [candidate_succ, candidate_succ,
      ih bits bits' (fun k hk => h k (by omega)), h n (by omega)]

/-! ### Replaying a move list through `add_step` -/

theorem playMoves_concat (p : path) (ms : List step_direction) (d : step_direction) :
    playMoves p (ms ++ [d]) = (playMoves p ms).add_step d := by
  induction ms generalizing p with
  | nil => rfl
  | cons m ms ih =>
    simp only [List.cons_append, playMoves]
    exact ih _

theorem playMoves_steps (p : path) (ms : List step_direction) (hm : ms.all isMove = true) :
    (playMoves p ms).steps = p.steps ++ ms := by
  induction ms generalizing p with
  | nil => simp [playMoves]
  | cons m ms ih =>
    simp only [List.all_cons, Bool.and_eq_true] at hm
    simp only [playMoves, ih _ hm.2, add_step_steps p m hm.1, List.append_assoc,
      List.singleton_append]

theorem goodPath_playMoves (setting : grid) (p : path) (ms : List step_direction)
    (hp : goodPath setting p) (hm : ms.all isMove = true) :
    goodPath setting (playMoves p ms) := by
  induction ms generalizing p with
  | nil => exact hp
  | cons m ms ih =>
    simp only [List.all_cons, Bool.and_eq_true] at hm
    exact ih _ (goodPath_add_step setting p m hp hm.1) hm.2

/-- A valid move sequence, encoded as its bit pattern, is decoded by the
exhaustive search into exactly that sequence: no single move is skipped. -/
theorem candidate_encode (setting : grid) (ms : List step_direction)
    (hm : ms.all isMove = true) (hseq : okSeqB setting (0, 0) ms = true) :
    candidate setting ms.length (encodeMoves ms) = playMoves (path.start setting) ms := by
  induction ms using List.reverseRecOn with
  | nil => rfl
  | append_singleton ms d ih =>
    simp only [List.all_append, List.all_cons, List.all_nil, Bool.and_eq_true,
      Bool.and_true] at hm
    rw [okSeqB_concat, Bool.and_eq_true] at hseq
    have hlen : (ms ++ [d]).length = ms.length + 1 := by
      simp
    rw [hlen, candidate_succ]
    have hagree : candidate setting ms.length (encodeMoves (ms ++ [d])) =
        candidate setting ms.length (encodeMoves ms) := by
      apply candidate_congr
      intro k hk
      rw [encodeMoves_bit _ k (by simp; omega), encodeMoves_bit _ k (by omega),
        List.getD_append _ _ _ k hk]
    have hbitlast : (encodeMoves (ms ++ [d]) >>> ms.length) &&& 1 =
        (if d = STEP_DIRECTION_RIGHT then 1 else 0) := by
      rw [encodeMoves_bit _ ms.length (by simp)]
      rw [List.getD_append_right _ _ _ _ (Nat.le_refl _)]
      simp
    have hplay : candidate setting ms.length (encodeMoves (ms ++ [d])) =
        playMoves (path.start setting) ms := by
      rw [hagree, ih hm.1 hseq.1]
    have hgoodp : goodPath setting (playMoves (path.start setting) ms) :=
      goodPath_playMoves setting _ ms (goodPath_start setting) hm.1
    obtain ⟨hs, hmm, hr, hg⟩ := hgoodp
    have hsteps : (playMoves (path.start setting) ms).steps = ms :=
      playMoves_steps _ ms hm.1
    have hhead : ms.foldl stepPos (0, 0) =
        ((playMoves (path.start setting) ms).row, (playMoves (path.start setting) ms).col) := by
      rw [hsteps] at hr
      exact hr
    have hok : okCellB setting (stepPos (ms.foldl stepPos (0, 0)) d) = true := hseq.2
    rw [playMoves_concat]
    rw [hhead] at hok
    cases d with
    | STEP_DIRECTION_START => simp [isMove] at hm
    | STEP_DIRECTION_RIGHT =>
      have hv : (playMoves (path.start setting) ms).is_step_valid
          STEP_DIRECTION_RIGHT = true := by
        rw [is_step_valid_right, hs]
        exact hok
      have hbit1 : (encodeMoves (ms ++ [STEP_DIRECTION_RIGHT]) >>> ms.length) &&& 1 = 1 := by
        rw [hbitlast]
        simp
      rw [if_pos hbit1, hplay]
      unfold stepIfValid
      rw [hv]
      simp
    | STEP_DIRECTION_DOWN =>
      have hv : (playMoves (path.start setting) ms).is_step_valid
          STEP_DIRECTION_DOWN = true := by
        rw [is_step_valid_down, hs]
        exact hok
      have hbit0 : (encodeMoves (ms ++ [STEP_DIRECTION_DOWN]) >>> ms.length) &&& 1 = 0 := by
        rw [hbitlast]
        simp
      have hne : ¬ (encodeMoves (ms ++ [STEP_DIRECTION_DOWN]) >>> ms.length) &&& 1 = 1 := by
        omega
      rw [if_neg hne, hplay]
      unfold stepIfValid
      rw [hv]
      simp

/-! ### The exhaustive search as a fold over the enumeration-ordered
candidate list -/

theorem exhaustive_eq_foldl (setting : grid) :
    greedy_gnomes_exhaustive setting =
      (candList setting).foldl updateBest (path.start setting) := by
  unfold greedy_gnomes_exhaustive candList
  rw [List.foldl_flatten, List.foldl_map]
  simp only [List.foldl_map]

theorem candidate_mem_candList (setting : grid) (len bits : Nat)
    (hl : len < setting.rows + setting.columns - 2 + 1) (hb : bits < 2 ^ len) :
    candidate setting len bits ∈ candList setting := by
  unfold candList
  rw [List.mem_flatten]
  refine ⟨(List.range (2 ^ len)).map (candidate setting len), ?_, ?_⟩
  · exact List.mem_map.mpr ⟨len, List.mem_range.mpr hl, rfl⟩
  · exact List.mem_map.mpr ⟨bits, List.mem_range.mpr hb, rfl⟩

theorem candList_elem (setting : grid) (q : path) (hq : q ∈ candList setting) :
    ∃ len bits, q = candidate setting len bits := by
  unfold candList at hq
  rw [List.mem_flatten] at hq
  obtain ⟨l, hl, hql⟩ := hq
  rw [List.mem_map] at hl
  obtain ⟨len, _, rfl⟩ := hl
  rw [List.mem_map] at hql
  obtain ⟨bits, _, rfl⟩ := hql
  exact ⟨len, bits, rfl⟩

theorem valid_moves_len_le (setting : grid) (ms : List step_direction)
    (h : validMovesB setting ms = true) :
    ms.length ≤ setting.rows + setting.columns - 2 := by
  have hm : ms.all isMove = true := by
    simp only [validMovesB, Bool.and_eq_true] at h
    exact h.1
  have hcoords := foldl_stepPos_coords ms (0, 0) hm
  have hok := validMoves_ok_replay setting ms h
  rw [okCellB_iff] at hok
  have h0 := validMoves_ok_start setting ms h
  rw [okCellB_iff] at h0
  simp only [replay] at hok
  omega

/-! ### Characterisation of the best-so-far fold -/

/-- How `updateBest` folds over a candidate list: the result dominates every
candidate's gold, is the initial path when every candidate is zero-move, and
otherwise is the earliest-enumerated candidate with at least one step whose
gold is never later strictly exceeded. -/
theorem foldl_updateBest_spec (setting : grid) (L : List path) :
    ∀ b : path,
      (∀ q ∈ L, (path.start setting).gold ≤ q.gold) →
      (∀ q ∈ L, q.steps = [] → q = path.start setting) →
      (∀ q ∈ L, q.steps.all isMove = true) →
      (path.start setting).gold ≤ b.gold →
      (b.steps = [] → b = path.start setting) →
      b.steps.all isMove = true →
      b.gold ≤ (L.foldl updateBest b).gold ∧
      (∀ q ∈ L, q.gold ≤ (L.foldl updateBest b).gold) ∧
      (L.foldl updateBest b = b ∨
        ∃ L1 L2, L = L1 ++ (L.foldl updateBest b) :: L2 ∧
          (L.foldl updateBest b).steps ≠ [] ∧
          (∀ q ∈ L1, q.steps = [] ∨ q.gold < (L.foldl updateBest b).gold) ∧
          (b.steps ≠ [] → b.gold < (L.foldl updateBest b).gold)) := by
  induction L with
  | nil =>
    intro b _ _ _ hb1 _ _
    exact ⟨Nat.le_refl _, by simp, Or.inl rfl⟩
  | cons p L ih =>
    intro b hL1 hL2 hL3 hb1 hb2 hb3
    have hp1 : (path.start setting).gold ≤ p.gold := hL1 p (List.mem_cons_self p L)
    have hp2 : p.steps = [] → p = path.start setting := hL2 p (List.mem_cons_self p L)
    have hp3 : p.steps.all isMove = true := hL3 p (List.mem_cons_self p L)
    have hL1' : ∀ q ∈ L, (path.start setting).gold ≤ q.gold :=
      fun q hq => hL1 q (List.mem_cons_of_mem p hq)
    have hL2' : ∀ q ∈ L, q.steps = [] → q = path.start setting :=
      fun q hq => hL2 q (List.mem_cons_of_mem p hq)
    have hL3' : ∀ q ∈ L, q.steps.all isMove = true :=
      fun q hq => hL3 q (List.mem_cons_of_mem p hq)
    rw [List.foldl_cons]
    by_cases hcond : b.last_step = STEP_DIRECTION_START ∨ b.total_gold < p.total_gold
    · -- best is replaced by p
      have hub : updateBest b p = p := by
        unfold updateBest
        rw [if_pos hcond]
      rw [hub]
      have hble : b.gold ≤ p.gold := by
        rcases hcond with hsent | hlt
        · rw [last_step_eq_start_iff b hb3] at hsent
          rw [hb2 hsent]
          exact hp1
        · exact Nat.le_of_lt hlt
      obtain ⟨c1, c2, c3⟩ := ih p hL1' hL2' hL3' hp1 hp2 hp3
      refine ⟨Nat.le_trans hble c1, ?_, ?_⟩
      · intro q hq
        rcases List.mem_cons.mp hq with rfl | hq'
        · exact c1
        · exact c2 q hq'
      · rcases c3 with hfix | ⟨L1, L2, hsplit, hne, hprev, hstrict⟩
        · -- the fold over L keeps p
          by_cases hpe : p.steps = []
          · left
            have hps : p = path.start setting := hp2 hpe
            have hbstart : b = path.start setting := by
              rcases hcond with hsent | hlt
              · exact hb2 ((last_step_eq_start_iff b hb3).mp hsent)
              · exfalso
                rw [hps] at hlt
                simp only [path.total_gold] at hlt
                omega
            rw [hfix, hps, hbstart]
          · right
            refine ⟨[], L, by rw [hfix]; simp, by rw [hfix]; exact hpe, by simp, ?_⟩
            intro hbne
            rcases hcond with hsent | hlt
            · exact absurd ((last_step_eq_start_iff b hb3).mp hsent) hbne
            · rw [hfix]
              exact hlt
        · right
          refine ⟨p :: L1, L2, by rw [List.cons_append, ← hsplit], hne, ?_, ?_⟩
          · intro q hq
            rcases List.mem_cons.mp hq with rfl | hq'
            · by_cases hqe : q.steps = []
              · exact Or.inl hqe
              · exact Or.inr (hstrict hqe)
            · exact hprev q hq'
          · intro hbne
            rcases hcond with hsent | hlt
            · exact absurd ((last_step_eq_start_iff b hb3).mp hsent) hbne
            · exact Nat.lt_of_lt_of_le hlt c1
    · -- p is skipped, best stays b
      have hub : updateBest b p = b := by
        unfold updateBest
        rw [if_neg hcond]
      rw [hub]
      push_neg at hcond
      obtain ⟨hsent, hge⟩ := hcond
      have hbne : b.steps ≠ [] := by
        intro he
        exact hsent ((last_step_eq_start_iff b hb3).mpr he)
      obtain ⟨c1, c2, c3⟩ := ih b hL1' hL2' hL3' hb1 hb2 hb3
      refine ⟨c1, ?_, ?_⟩
      · intro q hq
        rcases List.mem_cons.mp hq with rfl | hq'
        · exact Nat.le_trans hge c1
        · exact c2 q hq'
      · rcases c3 with hfix | ⟨L1, L2, hsplit, hne, hprev, hstrict⟩
        · exact Or.inl hfix
        · right
          refine ⟨p :: L1, L2, by rw [List.cons_append, ← hsplit], hne, ?_, hstrict⟩
          intro q hq
          rcases List.mem_cons.mp hq with rfl | hq'
          · right
            exact Nat.lt_of_le_of_lt hge (hstrict hbne)
          · exact hprev q hq'

theorem candList_facts (setting : grid) :
    ∀ q ∈ candList setting,
      (path.start setting).gold ≤ q.gold ∧ (q.steps = [] → q = path.start setting) ∧
        goodPath setting q ∧ okSeqB setting (0, 0) q.steps = true := by
  intro q hq
  obtain ⟨len, bits, rfl⟩ := candList_elem setting q hq
  exact ⟨candidate_gold_ge setting len bits, candidate_empty_eq_start setting len bits,
    candidate_goodPath setting len bits, candidate_okSeq setting len bits⟩

/-- Core facts about the value returned by the exhaustive search: it
dominates the gold of every enumerated candidate, it is structurally
coherent, its steps are playable from `(0,0)`, and it is either the start
path or sits in the candidate list after only zero-move or strictly worse
candidates. -/
theorem exhaustive_core (setting : grid) :
    (∀ q ∈ candList setting, q.gold ≤ (greedy_gnomes_exhaustive setting).gold) ∧
    goodPath setting (greedy_gnomes_exhaustive setting) ∧
    okSeqB setting (0, 0) (greedy_gnomes_exhaustive setting).steps = true ∧
    (greedy_gnomes_exhaustive setting = path.start setting ∨
      ∃ L1 L2, candList setting = L1 ++ greedy_gnomes_exhaustive setting :: L2 ∧
        (greedy_gnomes_exhaustive setting).steps ≠ [] ∧
        (∀ q ∈ L1, q.steps = [] ∨ q.gold < (greedy_gnomes_exhaustive setting).gold)) := by
  have hfacts := candList_facts setting
  have hspec := foldl_updateBest_spec setting (candList setting) (path.start setting)
    (fun q hq => (hfacts q hq).1) (fun q hq => (hfacts q hq).2.1)
    (fun q hq => (hfacts q hq).2.2.1.2.1)
    (Nat.le_refl _) (fun _ => rfl) rfl
  rw [← exhaustive_eq_foldl] at hspec
  obtain ⟨_, hmax, hdis⟩ := hspec
  have hmem : greedy_gnomes_exhaustive setting = path.start setting ∨
      greedy_gnomes_exhaustive setting ∈ candList setting := by
    rcases hdis with h | ⟨L1, L2, hsplit, _, _⟩
    · exact Or.inl h
    · right
      rw [hsplit]
      exact List.mem_append_right _ (List.mem_cons_self _ _)
  have hgood : goodPath setting (greedy_gnomes_exhaustive setting) ∧
      okSeqB setting (0, 0) (greedy_gnomes_exhaustive setting).steps = true := by
    rcases hmem with h | h
    · rw [h]
      exact ⟨goodPath_start setting, rfl⟩
    · exact ⟨(hfacts _ h).2.2.1, (hfacts _ h).2.2.2⟩
  refine ⟨hmax, hgood.1, hgood.2, ?_⟩
  rcases hdis with h | ⟨L1, L2, hsplit, hne, hprev, _⟩
  · exact Or.inl h
  · exact Or.inr ⟨L1, L2, hsplit, hne, hprev⟩

/-- Helper: the exhaustive search's result bounds every valid monotone path
and is attained by its own valid move sequence. -/
theorem exhaustive_max_gold (setting : grid)
    (h1 : 0 < setting.rows) (h2 : 0 < setting.columns)
    (h3 : setting.rows + setting.columns - 2 < 64)
    (h4 : isRock (setting.get 0 0) = false) :
    (∀ ms, validMovesB setting ms = true →
        movesGold setting ms ≤ (greedy_gnomes_exhaustive setting).total_gold) ∧
    validMovesB setting (greedy_gnomes_exhaustive setting).steps = true ∧
    movesGold setting (greedy_gnomes_exhaustive setting).steps =
      (greedy_gnomes_exhaustive setting).total_gold := by
  obtain ⟨hmax, hgood, hseq, _⟩ := exhaustive_core setting
  have hok00 : okCellB setting (0, 0) = true := by
    rw [okCellB_iff]
    exact ⟨h1, h2, h4⟩
  obtain ⟨hsg, hmg, hrg, hgg⟩ := hgood
  constructor
  · intro ms hms
    have hmm : ms.all isMove = true := by
      simp only [validMovesB, Bool.and_eq_true] at hms
      exact hms.1
    have hseqm : okSeqB setting (0, 0) ms = true := by
      rw [validMovesB_eq, Bool.and_eq_true, Bool.and_eq_true] at hms
      exact hms.2.2
    have henc := candidate_encode setting ms hmm hseqm
    have hpg : goodPath setting (playMoves (path.start setting) ms) :=
      goodPath_playMoves setting _ ms (goodPath_start setting) hmm
    have hpsteps : (playMoves (path.start setting) ms).steps = ms :=
      playMoves_steps _ ms hmm
    have hgold : (playMoves (path.start setting) ms).gold = movesGold setting ms := by
      obtain ⟨_, _, _, hg⟩ := hpg
      rw [hpsteps] at hg
      exact hg.symm
    have hmemc : candidate setting ms.length (encodeMoves ms) ∈ candList setting :=
      candidate_mem_candList setting ms.length (encodeMoves ms)
        (by have := valid_moves_len_le setting ms hms; omega)
        (encodeMoves_lt ms)
    have := hmax _ hmemc
    rw [henc] at this
    rw [hgold] at this
    exact this
  · constructor
    · rw [validMovesB_eq, Bool.and_eq_true, Bool.and_eq_true]
      exact ⟨hmg, hok00, hseq⟩
    · exact hgg

/-- C5 (amended): the returned path dominates every enumerated candidate;
when every candidate is zero-move the start path is returned unchanged; and
otherwise the returned path is the earliest-enumerated candidate with at
least one step among those of maximal gold — every earlier candidate in
enumeration order is either zero-move or has strictly less gold.  (The
original claim — replacement only on strictly greater gold, so the absolute
earliest equal-gold candidate wins — fails, see the counterexample: `best`
is also replaced whenever it is still a zero-move path.) -/
theorem exhaustive_first_max (setting : grid)
    (h1 : 0 < setting.rows) (h2 : 0 < setting.columns)
    (h3 : setting.rows + setting.columns - 2 < 64) :
    (∀ q ∈ candList setting,
        q.total_gold ≤ (greedy_gnomes_exhaustive setting).total_gold) ∧
    ((∀ q ∈ candList setting, q.steps = []) →
      greedy_gnomes_exhaustive setting = path.start setting) ∧
    (greedy_gnomes_exhaustive setting = path.start setting ∨
      ∃ L1 L2, candList setting = L1 ++ greedy_gnomes_exhaustive setting :: L2 ∧
        (greedy_gnomes_exhaustive setting).steps ≠ [] ∧
        (∀ q ∈ L1, q.steps = [] ∨
          q.total_gold < (greedy_gnomes_exhaustive setting).total_gold)) := by
  obtain ⟨hmax, _, _, hdis⟩ := exhaustive_core setting
  refine ⟨hmax, ?_, hdis⟩
  intro hall
  rcases hdis with h | ⟨L1, L2, hsplit, hne, _⟩
  · exact h
  · exfalso
    apply hne
    apply hall
    rw [hsplit]
    exact List.mem_append_right _ (List.mem_cons_self _ _)

theorem okCellB_all_rock (setting : grid)
    (hAll : ∀ i j, i < setting.rows → j < setting.columns →
      isRock (setting.get i j) = true) (pos : Nat × Nat) :
    okCellB setting pos = false := by
  by_cases hr : pos.1 < setting.rows
  · by_cases hc : pos.2 < setting.columns
    · simp [okCellB, hr, hc, hAll pos.1 pos.2 hr hc]
    · simp [okCellB, hc]
  · simp [okCellB, hr]

theorem stepIfValid_all_rock (setting : grid)
    (hAll : ∀ i j, i < setting.rows → j < setting.columns →
      isRock (setting.get i j) = true)
    (p : path) (hs : p.setting = setting) (d : step_direction) :
    stepIfValid p d = p := by
  unfold stepIfValid
  cases d with
  | STEP_DIRECTION_START => rfl
  | STEP_DIRECTION_RIGHT =>
    rw [is_step_valid_right, hs, okCellB_all_rock setting hAll]
    rfl
  | STEP_DIRECTION_DOWN =>
    rw [is_step_valid_down, hs, okCellB_all_rock setting hAll]
    rfl

theorem candidate_all_rock (setting : grid)
    (hAll : ∀ i j, i < setting.rows → j < setting.columns →
      isRock (setting.get i j) = true) (len bits : Nat) :
    candidate setting len bits = path.start setting := by
  induction len with
  | zero => rfl
  | succ n ih =>
    have hs : (candidate setting n bits).setting = setting :=
      (candidate_goodPath setting n bits).1
    rw [candidate_succ]
    split
    · rw [stepIfValid_all_rock setting hAll _ hs, ih]
    · rw [stepIfValid_all_rock setting hAll _ hs, ih]

theorem foldl_updateBest_start (setting : grid) (L : List path)
    (h : ∀ q ∈ L, q = path.start setting) :
    L.foldl updateBest (path.start setting) = path.start setting := by
  induction L with
  | nil => rfl
  | cons p L ih =>
    rw [List.foldl_cons, h p (List.mem_cons_self p L)]
    have hstep : updateBest (path.start setting) (path.start setting) = path.start setting := by
      unfold updateBest
      split <;> rfl
    rw [hstep]
    exact ih fun q hq => h q (List.mem_cons_of_mem p hq)

/-- C6 (amended): on a non-empty small-enough grid all of whose cells are
ROCK, the exhaustive search returns the degenerate zero-move path
(`last_step() == START`) with zero gold.  (The original claim — ROCK at
`(0,0)` alone suffices — fails, see the counterexample: candidates may step
off a blocked start cell onto OPEN neighbours and harvest their gold.) -/
theorem exhaustive_all_rock (setting : grid)
    (h1 : 0 < setting.rows) (h2 : 0 < setting.columns)
    (h3 : setting.rows + setting.columns - 2 < 64)
    (hAll : ∀ i j, i < setting.rows → j < setting.columns →
      isRock (setting.get i j) = true) :
    greedy_gnomes_exhaustive setting = path.start setting ∧
    (greedy_gnomes_exhaustive setting).last_step = STEP_DIRECTION_START ∧
    (greedy_gnomes_exhaustive setting).total_gold = 0 := by
  have hres : greedy_gnomes_exhaustive setting = path.start setting := by
    rw [exhaustive_eq_foldl]
    apply foldl_updateBest_start
    intro q hq
    obtain ⟨len, bits, rfl⟩ := candList_elem setting q hq
    exact candidate_all_rock setting hAll len bits
  refine ⟨hres, ?_, ?_⟩
  · rw [hres]
    rfl
  · rw [hres]
    show cellGold (setting.get 0 0) = 0
    have := hAll 0 0 h1 h2
    cases hcell : setting.get 0 0 with
    | CELL_OPEN g =>
      rw [hcell] at this
      simp [isRock] at this
    | CELL_ROCK => rfl

/-- C5 witness: the amended tie-break characterisation instantiated at the
1×2 zero-gold grid. -/
theorem exhaustive_first_max_witness :
    (0 < gFlat.rows ∧ 0 < gFlat.columns ∧ gFlat.rows + gFlat.columns - 2 < 64) ∧
    ((∀ q ∈ candList gFlat,
        q.total_gold ≤ (greedy_gnomes_exhaustive gFlat).total_gold) ∧
      ((∀ q ∈ candList gFlat, q.steps = []) →
        greedy_gnomes_exhaustive gFlat = path.start gFlat) ∧
      (greedy_gnomes_exhaustive gFlat = path.start gFlat ∨
        ∃ L1 L2, candList gFlat = L1 ++ greedy_gnomes_exhaustive gFlat :: L2 ∧
          (greedy_gnomes_exhaustive gFlat).steps ≠ [] ∧
          (∀ q ∈ L1, q.steps = [] ∨
            q.total_gold < (greedy_gnomes_exhaustive gFlat).total_gold))) :=
  ⟨⟨by decide, by decide, by decide⟩,
    exhaustive_first_max gFlat (by decide) (by decide) (by decide)⟩

/-- C6 witness: the amended all-ROCK statement instantiated at the 1×1
all-ROCK grid. -/
theorem exhaustive_all_rock_witness :
    (0 < gAllRock.rows ∧ 0 < gAllRock.columns ∧
      gAllRock.rows + gAllRock.columns - 2 < 64 ∧
      (∀ i j, i < gAllRock.rows → j < gAllRock.columns →
        isRock (gAllRock.get i j) = true)) ∧
    (greedy_gnomes_exhaustive gAllRock = path.start gAllRock ∧
      (greedy_gnomes_exhaustive gAllRock).last_step = STEP_DIRECTION_START ∧
      (greedy_gnomes_exhaustive gAllRock).total_gold = 0) := by
  have hAll : ∀ i j, i < gAllRock.rows → j < gAllRock.columns →
      isRock (gAllRock.get i j) = true := by
    intro i j hi hj
    have hr : gAllRock.rows = 1 := rfl
    have hc : gAllRock.columns = 1 := rfl
    rw [hr] at hi
    rw [hc] at hj
    have hi0 : i = 0 := by omega
    have hj0 : j = 0 := by omega
    subst hi0
    subst hj0
    decide
  exact ⟨⟨by decide, by decide, by decide, hAll⟩,
    exhaustive_all_rock gAllRock (by decide) (by decide) (by decide) hAll⟩

/-! ### The dynamic-programming table equals its recursive characterisation -/

theorem dpCell_eq_Atab (setting : grid) (A : Nat → Nat → Option path) (i j : Nat)
    (hup : 0 < i → A (i - 1) j = Atab setting (i - 1) j)
    (hleft : 0 < j → A i (j - 1) = Atab setting i (j - 1))
    (hself : A i j = dpInit setting i j) :
    dpCell setting A i j = Atab setting i j := by
  conv_rhs => rw [Atab]
  unfold dpCell from_above from_left
  simp only [dite_eq_ite]
  by_cases hrock : isRock (setting.get i j)
  · simp [hrock]
  · simp only [hrock, if_false, Bool.false_eq_true]
    have hu : (if 0 < i then
          (A (i - 1) j).map (fun p => stepIfValid p STEP_DIRECTION_DOWN) else none) =
        (if 0 < i then
          (Atab setting (i - 1) j).map (fun p => stepIfValid p STEP_DIRECTION_DOWN)
        else none) := by
      split
      · next h => rw [hup h]
      · rfl
    have hl : (if 0 < j then
          (A i (j - 1)).map (fun p => stepIfValid p STEP_DIRECTION_RIGHT) else none) =
        (if 0 < j then
          (Atab setting i (j - 1)).map (fun p => stepIfValid p STEP_DIRECTION_RIGHT)
        else none) := by
      split
      · next h => rw [hleft h]
      · rfl
    rw [hu, hl]
    cases hfa : (if 0 < i then
        (Atab setting (i - 1) j).map (fun p => stepIfValid p STEP_DIRECTION_DOWN)
      else none) with
    | none =>
      cases hfl : (if 0 < j then
          (Atab setting i (j - 1)).map (fun p => stepIfValid p STEP_DIRECTION_RIGHT)
        else none) with
      | none => exact hself
      | some l => rfl
    | some a =>
      cases hfl : (if 0 < j then
          (Atab setting i (j - 1)).map (fun p => stepIfValid p STEP_DIRECTION_RIGHT)
        else none) with
      | none => rfl
      | some l => rfl

theorem rowFill_succ (setting : grid) (A : Nat → Nat → Option path) (i n : Nat) :
    rowFill setting A i (n + 1) =
      dpWrite (rowFill setting A i n) i n (dpCell setting (rowFill setting A i n) i n) := by
  unfold rowFill
  rw [List.range_succ, List.foldl_append]
  rfl

theorem tableFill_succ (setting : grid) (r : Nat) :
    tableFill setting (r + 1) =
      rowFill setting (tableFill setting r) r setting.columns := by
  unfold tableFill
  rw [List.range_succ, List.foldl_append]
  rfl

theorem rowFill_spec (setting : grid) (i : Nat) :
    ∀ n, ∀ A : Nat → Nat → Option path,
      (∀ r c, r < i → c < setting.columns → A r c = Atab setting r c) →
      (∀ r c, i ≤ r ∨ setting.columns ≤ c → A r c = dpInit setting r c) →
      n ≤ setting.columns →
      (∀ c, c < n → rowFill setting A i n i c = Atab setting i c) ∧
      (∀ r c, r ≠ i → rowFill setting A i n r c = A r c) ∧
      (∀ c, n ≤ c → rowFill setting A i n i c = A i c) := by
  intro n
  induction n with
  | zero =>
    intro A _ _ _
    exact ⟨fun c hc => absurd hc (Nat.not_lt_zero c), fun _ _ _ => rfl, fun _ _ => rfl⟩
  | succ n ih =>
    intro A ha hb hn
    obtain ⟨i1, i2, i3⟩ := ih A ha hb (Nat.le_of_succ_le hn)
    have hcell : dpCell setting (rowFill setting A i n) i n = Atab setting i n := by
      apply dpCell_eq_Atab
      · intro hi
        rw [i2 (i - 1) n (by omega)]
        exact ha (i - 1) n (by omega) (by omega)
      · intro hj
        exact i1 (n - 1) (by omega)
      · rw [i3 n (Nat.le_refl n)]
        exact hb i n (Or.inl (Nat.le_refl i))
    rw [rowFill_succ]
    refine ⟨?_, ?_, ?_⟩
    · intro c hc
      by_cases hcn : c = n
      · subst hcn
        unfold dpWrite
        simp [hcell]
      · unfold dpWrite
        have hne : ¬ (i = i ∧ c = n) := by simp [hcn]
        rw [if_neg hne]
        exact i1 c (by omega)
    · intro r c hr
      unfold dpWrite
      have hne : ¬ (r = i ∧ c = n) := by simp [hr]
      rw [if_neg hne]
      exact i2 r c hr
    · intro c hc
      unfold dpWrite
      have hne : ¬ (i = i ∧ c = n) := by omega
      rw [if_neg hne]
      exact i3 c (by omega)

theorem tableFill_spec (setting : grid) :
    ∀ r,
      (∀ r' c, r' < r → c < setting.columns →
        tableFill setting r r' c = Atab setting r' c) ∧
      (∀ r' c, r ≤ r' ∨ setting.columns ≤ c →
        tableFill setting r r' c = dpInit setting r' c) := by
  intro r
  induction r with
  | zero => exact ⟨fun r' c hr _ => absurd hr (Nat.not_lt_zero r'), fun _ _ _ => rfl⟩
  | succ r ih =>
    obtain ⟨i1, i2⟩ := ih
    obtain ⟨p1, p2, p3⟩ := rowFill_spec setting r setting.columns (tableFill setting r)
      (fun r' c hr hc => i1 r' c hr hc)
      (fun r' c h => i2 r' c h)
      (Nat.le_refl _)
    rw [tableFill_succ]
    refine ⟨?_, ?_⟩
    · intro r' c hr hc
      by_cases hrr : r' = r
      · subst hrr
        exact p1 c hc
      · rw [p2 r' c hrr]
        exact i1 r' c (by omega) hc
    · intro r' c h
      rcases h with h | h
      · have hrr : r' ≠ r := by omega
        rw [p2 r' c hrr]
        exact i2 r' c (Or.inl (by omega))
      · by_cases hrr : r' = r
        · subst hrr
          rw [p3 c h]
          exact i2 r' c (Or.inr h)
        · rw [p2 r' c hrr]
          exact i2 r' c (Or.inr h)

theorem dpTable_eq_tableFill (setting : grid) :
    dpTable setting = tableFill setting setting.rows := rfl

/-- In-bounds entries of the imperative, row-major-filled table agree with
the recursive characterisation `Atab`. -/
theorem dpTable_eq_Atab (setting : grid) (i j : Nat)
    (hi : i < setting.rows) (hj : j < setting.columns) :
    dpTable setting i j = Atab setting i j := by
  rw [dpTable_eq_tableFill]
  exact (tableFill_spec setting setting.rows).1 i j hi hj

theorem Atab_zero (setting : grid) (h : isRock (setting.get 0 0) = false) :
    Atab setting 0 0 = some (path.start setting) := by
  rw [Atab]
  simp [h, dpInit]

/-! ### The dynamic-programming invariant -/

theorem valid_reaches_elim (setting : grid) (ms : List step_direction)
    (hv : validMovesB setting ms = true) (i j : Nat) (hrep : replay ms = (i, j)) :
    (ms = [] ∧ i = 0 ∧ j = 0) ∨
    (∃ ms', ms = ms' ++ [STEP_DIRECTION_DOWN] ∧ validMovesB setting ms' = true ∧
      0 < i ∧ replay ms' = (i - 1, j) ∧
      movesGold setting ms = movesGold setting ms' + cellGold (setting.get i j)) ∨
    (∃ ms', ms = ms' ++ [STEP_DIRECTION_RIGHT] ∧ validMovesB setting ms' = true ∧
      0 < j ∧ replay ms' = (i, j - 1) ∧
      movesGold setting ms = movesGold setting ms' + cellGold (setting.get i j)) := by
  rcases List.eq_nil_or_concat ms with rfl | ⟨l, d, hcat⟩
  · left
    refine ⟨rfl, ?_, ?_⟩
    · have h : (0, 0) = ((i : Nat), (j : Nat)) := hrep
      exact (Prod.mk.injEq 0 0 i j ▸ h).1.symm ▸ rfl
    · have h : (0, 0) = ((i : Nat), (j : Nat)) := hrep
      exact (Prod.mk.injEq 0 0 i j ▸ h).2.symm ▸ rfl
  · rw [List.concat_eq_append] at hcat
    subst hcat
    obtain ⟨hvl, hmd, hok⟩ := (validMovesB_concat setting l d).mp hv
    rw [replay_concat] at hrep
    have hgold := movesGold_concat setting l d
    cases d with
    | STEP_DIRECTION_START => simp [isMove] at hmd
    | STEP_DIRECTION_DOWN =>
      right; left
      have h1 : (replay l).1 + 1 = i := congrArg Prod.fst hrep
      have h2 : (replay l).2 = j := congrArg Prod.snd hrep
      refine ⟨l, rfl, hvl, by omega, ?_, ?_⟩
      · have : replay l = ((replay l).1, (replay l).2) := rfl
        rw [this, h2]
        congr 1
        omega
      · rw [hgold, hrep]
    | STEP_DIRECTION_RIGHT =>
      right; right
      have h1 : (replay l).1 = i := congrArg Prod.fst hrep
      have h2 : (replay l).2 + 1 = j := congrArg Prod.snd hrep
      refine ⟨l, rfl, hvl, by omega, ?_, ?_⟩
      · have : replay l = ((replay l).1, (replay l).2) := rfl
        rw [this, h1]
        congr 1
        omega
      · rw [hgold, hrep]

theorem add_step_down_row (p : path) :
    (p.add_step STEP_DIRECTION_DOWN).row = p.row + 1 := rfl

theorem add_step_down_col (p : path) :
    (p.add_step STEP_DIRECTION_DOWN).col = p.col := rfl

theorem add_step_down_gold (p : path) :
    (p.add_step STEP_DIRECTION_DOWN).gold =
      p.gold + cellGold (p.setting.get (p.row + 1) p.col) := rfl

theorem add_step_right_row (p : path) :
    (p.add_step STEP_DIRECTION_RIGHT).row = p.row := rfl

theorem add_step_right_col (p : path) :
    (p.add_step STEP_DIRECTION_RIGHT).col = p.col + 1 := rfl

theorem add_step_right_gold (p : path) :
    (p.add_step STEP_DIRECTION_RIGHT).gold =
      p.gold + cellGold (p.setting.get p.row (p.col + 1)) := rfl

/-- The combined invariant of the recursive table characterisation: every
present entry is a structurally coherent path whose head is its own cell and
whose move sequence is a valid monotone path; and the entry's gold dominates
every valid monotone path reaching that cell. -/
theorem Atab_inv (setting : grid) :
    ∀ n i j, i + j = n → i < setting.rows → j < setting.columns →
      (∀ p, Atab setting i j = some p →
        goodPath setting p ∧ p.row = i ∧ p.col = j ∧
          validMovesB setting p.steps = true) ∧
      (∀ ms, validMovesB setting ms = true → replay ms = (i, j) →
        ∃ p, Atab setting i j = some p ∧ movesGold setting ms ≤ p.gold) := by
  intro n
  induction n using Nat.strong_induction_on with
  | _ n ih =>
  intro i j hn hi hj
  by_cases hrock : isRock (setting.get i j) = true
  · have hA : Atab setting i j = none := by
      rw [Atab]
      simp [hrock]
    constructor
    · intro p hp
      rw [hA] at hp
      cases hp
    · intro ms hms hrep
      exfalso
      have hok := validMoves_ok_replay setting ms hms
      rw [hrep, okCellB_iff] at hok
      rw [hok.2.2] at hrock
      exact Bool.false_ne_true hrock
  · have hrock' : isRock (setting.get i j) = false := by
      simp only [Bool.not_eq_true] at hrock
      exact hrock
    have hok_ij : okCellB setting (i, j) = true := by
      rw [okCellB_iff]
      exact ⟨hi, hj, hrock'⟩
    have hAeq : Atab setting i j =
        (match (if 0 < i then (Atab setting (i - 1) j).map
            (fun p => stepIfValid p STEP_DIRECTION_DOWN) else none),
          (if 0 < j then (Atab setting i (j - 1)).map
            (fun p => stepIfValid p STEP_DIRECTION_RIGHT) else none) with
         | some a, some l => some (if l.total_gold < a.total_gold then a else l)
         | some a, none => some a
         | none, some l => some l
         | none, none => dpInit setting i j) := by
      conv_lhs => rw [Atab]
      simp only [dite_eq_ite, hrock', Bool.false_eq_true, if_false]
    have hup : ∀ q, Atab setting (i - 1) j = some q → 0 < i →
        q.is_step_valid STEP_DIRECTION_DOWN = true ∧
        stepIfValid q STEP_DIRECTION_DOWN = q.add_step STEP_DIRECTION_DOWN ∧
        goodPath setting (q.add_step STEP_DIRECTION_DOWN) ∧
        (q.add_step STEP_DIRECTION_DOWN).row = i ∧
        (q.add_step STEP_DIRECTION_DOWN).col = j ∧
        validMovesB setting (q.add_step STEP_DIRECTION_DOWN).steps = true ∧
        (q.add_step STEP_DIRECTION_DOWN).gold =
          q.gold + cellGold (setting.get i j) := by
      intro q hq hipos
      obtain ⟨ih1, _⟩ := ih ((i - 1) + j) (by omega) (i - 1) j rfl (by omega) hj
      obtain ⟨hqg, hqr, hqc, hqv⟩ := ih1 q hq
      obtain ⟨hqs, hqm, hqrep, hqgold⟩ := hqg
      have hcr : q.row + 1 = i := by omega
      have hvalid : q.is_step_valid STEP_DIRECTION_DOWN = true := by
        rw [is_step_valid_down, hqs]
        have : ((q.row + 1 : Nat), q.col) = ((i : Nat), (j : Nat)) := by
          rw [hcr, hqc]
        rw [this]
        exact hok_ij
      have hstep : stepIfValid q STEP_DIRECTION_DOWN = q.add_step STEP_DIRECTION_DOWN := by
        unfold stepIfValid
        rw [hvalid]
        simp
      refine ⟨hvalid, hstep, goodPath_add_step setting q _ ⟨hqs, hqm, hqrep, hqgold⟩ rfl,
        ?_, ?_, ?_, ?_⟩
      · rw [add_step_down_row, hcr]
      · rw [add_step_down_col, hqc]
      · rw [add_step_steps q STEP_DIRECTION_DOWN rfl]
        rw [validMovesB_concat]
        refine ⟨hqv, rfl, ?_⟩
        have : stepPos (replay q.steps) STEP_DIRECTION_DOWN = ((i : Nat), (j : Nat)) := by
          rw [hqrep]
          show ((q.row + 1 : Nat), q.col) = _
          rw [hcr, hqc]
        rw [this]
        exact hok_ij
      · rw [add_step_down_gold, hqs, hcr, hqc]
    have hleft : ∀ q, Atab setting i (j - 1) = some q → 0 < j →
        q.is_step_valid STEP_DIRECTION_RIGHT = true ∧
        stepIfValid q STEP_DIRECTION_RIGHT = q.add_step STEP_DIRECTION_RIGHT ∧
        goodPath setting (q.add_step STEP_DIRECTION_RIGHT) ∧
        (q.add_step STEP_DIRECTION_RIGHT).row = i ∧
        (q.add_step STEP_DIRECTION_RIGHT).col = j ∧
        validMovesB setting (q.add_step STEP_DIRECTION_RIGHT).steps = true ∧
        (q.add_step STEP_DIRECTION_RIGHT).gold =
          q.gold + cellGold (setting.get i j) := by
      intro q hq hjpos
      obtain ⟨ih1, _⟩ := ih (i + (j - 1)) (by omega) i (j - 1) rfl hi (by omega)
      obtain ⟨hqg, hqr, hqc, hqv⟩ := ih1 q hq
      obtain ⟨hqs, hqm, hqrep, hqgold⟩ := hqg
      have hcc : q.col + 1 = j := by omega
      have hvalid : q.is_step_valid STEP_DIRECTION_RIGHT = true := by
        rw [is_step_valid_right, hqs]
        have : ((q.row : Nat), q.col + 1) = ((i : Nat), (j : Nat)) := by
          rw [hcc, hqr]
        rw [this]
        exact hok_ij
      have hstep : stepIfValid q STEP_DIRECTION_RIGHT = q.add_step STEP_DIRECTION_RIGHT := by
        unfold stepIfValid
        rw [hvalid]
        simp
      refine ⟨hvalid, hstep, goodPath_add_step setting q _ ⟨hqs, hqm, hqrep, hqgold⟩ rfl,
        ?_, ?_, ?_, ?_⟩
      · rw [add_step_right_row, hqr]
      · rw [add_step_right_col, hcc]
      · rw [add_step_steps q STEP_DIRECTION_RIGHT rfl]
        rw [validMovesB_concat]
        refine ⟨hqv, rfl, ?_⟩
        have : stepPos (replay q.steps) STEP_DIRECTION_RIGHT = ((i : Nat), (j : Nat)) := by
          rw [hqrep]
          show ((q.row : Nat), q.col + 1) = _
          rw [hcc, hqr]
        rw [this]
        exact hok_ij
      · rw [add_step_right_gold, hqs, hqr, hcc]
    have hFAfacts : ∀ a, (if 0 < i then (Atab setting (i - 1) j).map
        (fun p => stepIfValid p STEP_DIRECTION_DOWN) else none) = some a →
        goodPath setting a ∧ a.row = i ∧ a.col = j ∧
          validMovesB setting a.steps = true := by
      intro a hfa
      have hipos : 0 < i := by
        by_contra h
        rw [if_neg h] at hfa
        cases hfa
      rw [if_pos hipos, Option.map_eq_some'] at hfa
      obtain ⟨q, hq, hfq⟩ := hfa
      obtain ⟨_, hstep, hgood, hrow, hcol, hvB, _⟩ := hup q hq hipos
      rw [hstep] at hfq
      exact hfq ▸ ⟨hgood, hrow, hcol, hvB⟩
    have hFLfacts : ∀ l, (if 0 < j then (Atab setting i (j - 1)).map
        (fun p => stepIfValid p STEP_DIRECTION_RIGHT) else none) = some l →
        goodPath setting l ∧ l.row = i ∧ l.col = j ∧
          validMovesB setting l.steps = true := by
      intro l hfl
      have hjpos : 0 < j := by
        by_contra h
        rw [if_neg h] at hfl
        cases hfl
      rw [if_pos hjpos, Option.map_eq_some'] at hfl
      obtain ⟨q, hq, hfq⟩ := hfl
      obtain ⟨_, hstep, hgood, hrow, hcol, hvB, _⟩ := hleft q hq hjpos
      rw [hstep] at hfq
      exact hfq ▸ ⟨hgood, hrow, hcol, hvB⟩
    constructor
    · -- every present entry is coherent
      intro p hp
      rw [hAeq] at hp
      cases hFA : (if 0 < i then (Atab setting (i - 1) j).map
          (fun p => stepIfValid p STEP_DIRECTION_DOWN) else none) with
      | none =>
        cases hFL : (if 0 < j then (Atab setting i (j - 1)).map
            (fun p => stepIfValid p STEP_DIRECTION_RIGHT) else none) with
        | none =>
          rw [hFA, hFL] at hp
          simp only at hp
          unfold dpInit at hp
          by_cases hz : i = 0 ∧ j = 0
          · rw [if_pos hz] at hp
            injection hp with hp
            obtain ⟨hz1, hz2⟩ := hz
            subst hz1
            subst hz2
            refine hp ▸ ⟨goodPath_start setting, rfl, rfl, ?_⟩
            have hv0 : validMovesB setting [] = okCellB setting (0, 0) := by
              simp [validMovesB, cellsFrom]
            rw [path.start, hv0]
            exact hok_ij
          · rw [if_neg hz] at hp
            cases hp
        | some l =>
          rw [hFA, hFL] at hp
          simp only at hp
          injection hp with hp
          exact hp ▸ hFLfacts l hFL
      | some a =>
        cases hFL : (if 0 < j then (Atab setting i (j - 1)).map
            (fun p => stepIfValid p STEP_DIRECTION_RIGHT) else none) with
        | none =>
          rw [hFA, hFL] at hp
          simp only at hp
          injection hp with hp
          exact hp ▸ hFAfacts a hFA
        | some l =>
          rw [hFA, hFL] at hp
          simp only at hp
          injection hp with hp
          by_cases hlt : l.total_gold < a.total_gold
          · rw [if_pos hlt] at hp
            exact hp ▸ hFAfacts a hFA
          · rw [if_neg hlt] at hp
            exact hp ▸ hFLfacts l hFL
    · -- the entry dominates every valid path reaching (i,j)
      intro ms hms hrep
      rcases valid_reaches_elim setting ms hms i j hrep with
        ⟨hnil, hz1, hz2⟩ | ⟨ms', hcat, hv', hipos, hrep', hg⟩ |
          ⟨ms', hcat, hv', hjpos, hrep', hg⟩
      · subst hz1
        subst hz2
        subst hnil
        refine ⟨path.start setting, Atab_zero setting hrock', ?_⟩
        have hmg : movesGold setting [] = (path.start setting).gold := by
          simp [movesGold, cellsFrom, path.start]
        exact Nat.le_of_eq hmg
      · -- reached from above
        obtain ⟨_, ih2⟩ := ih ((i - 1) + j) (by omega) (i - 1) j rfl (by omega) hj
        obtain ⟨q, hq, hqle⟩ := ih2 ms' hv' hrep'
        obtain ⟨_, hstep, _, _, _, _, hgold⟩ := hup q hq hipos
        have hFAeq : (if 0 < i then (Atab setting (i - 1) j).map
            (fun p => stepIfValid p STEP_DIRECTION_DOWN) else none) =
            some (q.add_step STEP_DIRECTION_DOWN) := by
          rw [if_pos hipos, hq, Option.map_some', hstep]
        have hagold : movesGold setting ms ≤ (q.add_step STEP_DIRECTION_DOWN).gold := by
          rw [hcat] at hg ⊢
          rw [hg, hgold]
          omega
        rw [hAeq, hFAeq]
        cases hFL : (if 0 < j then (Atab setting i (j - 1)).map
            (fun p => stepIfValid p STEP_DIRECTION_RIGHT) else none) with
        | none => exact ⟨_, rfl, hagold⟩
        | some l =>
          refine ⟨if l.total_gold < (q.add_step STEP_DIRECTION_DOWN).total_gold then
            q.add_step STEP_DIRECTION_DOWN else l, rfl, ?_⟩
          split
          · exact hagold
          · next hnlt => exact Nat.le_trans hagold (Nat.not_lt.mp hnlt)
      · -- reached from the left
        obtain ⟨_, ih2⟩ := ih (i + (j - 1)) (by omega) i (j - 1) rfl hi (by omega)
        obtain ⟨q, hq, hqle⟩ := ih2 ms' hv' hrep'
        obtain ⟨_, hstep, _, _, _, _, hgold⟩ := hleft q hq hjpos
        have hFLeq : (if 0 < j then (Atab setting i (j - 1)).map
            (fun p => stepIfValid p STEP_DIRECTION_RIGHT) else none) =
            some (q.add_step STEP_DIRECTION_RIGHT) := by
          rw [if_pos hjpos, hq, Option.map_some', hstep]
        have hlgold : movesGold setting ms ≤ (q.add_step STEP_DIRECTION_RIGHT).gold := by
          rw [hcat] at hg ⊢
          rw [hg, hgold]
          omega
        rw [hAeq, hFLeq]
        cases hFA : (if 0 < i then (Atab setting (i - 1) j).map
            (fun p => stepIfValid p STEP_DIRECTION_DOWN) else none) with
        | none => exact ⟨_, rfl, hlgold⟩
        | some a =>
          refine ⟨if (q.add_step STEP_DIRECTION_RIGHT).total_gold < a.total_gold then
            a else q.add_step STEP_DIRECTION_RIGHT, rfl, ?_⟩
          split
          · next hlt => exact Nat.le_trans hlgold (Nat.le_of_lt hlt)
          · exact hlgold

/-- C3: on a non-empty grid with an OPEN start cell and
`rows + columns - 2 < 64`, the exhaustive search returns a path whose total
gold equals the maximum over all valid monotone paths (sequences of
RIGHT/DOWN moves from `(0,0)`, in bounds, never entering ROCK, possibly
stopping early): it is an upper bound for the gold of every valid move
sequence, and it is attained by the returned path's own valid move
sequence. -/
theorem exhaustive_optimal (setting : grid)
    (h1 : 0 < setting.rows) (h2 : 0 < setting.columns)
    (h3 : setting.rows + setting.columns - 2 < 64)
    (h4 : isRock (setting.get 0 0) = false) :
    (∀ ms, validMovesB setting ms = true →
        movesGold setting ms ≤ (greedy_gnomes_exhaustive setting).total_gold) ∧
    validMovesB setting (greedy_gnomes_exhaustive setting).steps = true ∧
    movesGold setting (greedy_gnomes_exhaustive setting).steps =
      (greedy_gnomes_exhaustive setting).total_gold :=
  exhaustive_max_gold setting h1 h2 h3 h4

/-- C3 witness: the optimality statement instantiated at the 2×2 example
grid `[[1,2],[3,4]]`. -/
theorem exhaustive_optimal_witness :
    (0 < gEx.rows ∧ 0 < gEx.columns ∧ gEx.rows + gEx.columns - 2 < 64 ∧
      isRock (gEx.get 0 0) = false) ∧
    ((∀ ms, validMovesB gEx ms = true →
        movesGold gEx ms ≤ (greedy_gnomes_exhaustive gEx).total_gold) ∧
      validMovesB gEx (greedy_gnomes_exhaustive gEx).steps = true ∧
      movesGold gEx (greedy_gnomes_exhaustive gEx).steps =
        (greedy_gnomes_exhaustive gEx).total_gold) :=
  ⟨⟨by decide, by decide, by decide, by decide⟩,
    exhaustive_optimal gEx (by decide) (by decide) (by decide) (by decide)⟩

/-! ### The post-processing scan -/

theorem dyn_prog_eq_foldl (setting : grid) :
    greedy_gnomes_dyn_prog setting =
      (cellIdx setting).foldl
        (fun best ij => scanStep best (dpTable setting ij.1 ij.2))
        (dpTable setting 0 0) := by
  unfold greedy_gnomes_dyn_prog cellIdx
  rw [List.foldl_flatten, List.foldl_map]
  simp only [List.foldl_map]

theorem mem_cellIdx (setting : grid) (i j : Nat)
    (hi : i < setting.rows) (hj : j < setting.columns) :
    ((i, j) : Nat × Nat) ∈ cellIdx setting := by
  unfold cellIdx
  rw [List.mem_flatten]
  refine ⟨(List.range setting.columns).map (fun j => (i, j)), ?_, ?_⟩
  · exact List.mem_map.mpr ⟨i, List.mem_range.mpr hi, rfl⟩
  · exact List.mem_map.mpr ⟨j, List.mem_range.mpr hj, rfl⟩

theorem cellIdx_mem_bounds (setting : grid) (ij : Nat × Nat)
    (h : ij ∈ cellIdx setting) : ij.1 < setting.rows ∧ ij.2 < setting.columns := by
  unfold cellIdx at h
  rw [List.mem_flatten] at h
  obtain ⟨l, hl, hij⟩ := h
  rw [List.mem_map] at hl
  obtain ⟨i, hi, rfl⟩ := hl
  rw [List.mem_map] at hij
  obtain ⟨j, hj, rfl⟩ := hij
  exact ⟨List.mem_range.mp hi, List.mem_range.mp hj⟩

theorem foldl_scan_spec (A : Nat → Nat → Option path) (L : List (Nat × Nat)) :
    ∀ b : path,
      ∃ r, L.foldl (fun best ij => scanStep best (A ij.1 ij.2)) (some b) = some r ∧
        (r = b ∨ ∃ ij ∈ L, A ij.1 ij.2 = some r) ∧
        b.gold ≤ r.gold ∧
        (∀ ij ∈ L, ∀ p, A ij.1 ij.2 = some p → p.gold ≤ r.gold) := by
  induction L with
  | nil =>
    intro b
    exact ⟨b, rfl, Or.inl rfl, Nat.le_refl _, by simp⟩
  | cons ij L ih =>
    intro b
    rw [List.foldl_cons]
    cases hA : A ij.1 ij.2 with
    | none =>
      rw [show scanStep (some b) none = some b from rfl]
      obtain ⟨r, hfold, hmem, hge, hdom⟩ := ih b
      refine ⟨r, hfold, ?_, hge, ?_⟩
      · rcases hmem with h | ⟨kl, hkl, hent⟩
        · exact Or.inl h
        · exact Or.inr ⟨kl, List.mem_cons_of_mem ij hkl, hent⟩
      · intro kl hkl p hp
        rcases List.mem_cons.mp hkl with rfl | hkl'
        · rw [hA] at hp
          cases hp
        · exact hdom kl hkl' p hp
    | some p =>
      rw [show scanStep (some b) (some p) =
          (if b.total_gold < p.total_gold then some p else some b) from rfl]
      by_cases hlt : b.total_gold < p.total_gold
      · rw [if_pos hlt]
        obtain ⟨r, hfold, hmem, hge, hdom⟩ := ih p
        refine ⟨r, hfold, ?_, ?_, ?_⟩
        · rcases hmem with rfl | ⟨kl, hkl, hent⟩
          · exact Or.inr ⟨ij, List.mem_cons_self ij L, hA⟩
          · exact Or.inr ⟨kl, List.mem_cons_of_mem ij hkl, hent⟩
        · exact Nat.le_trans (Nat.le_of_lt hlt) hge
        · intro kl hkl q hq
          rcases List.mem_cons.mp hkl with rfl | hkl'
          · rw [hA] at hq
            injection hq with hq
            exact hq ▸ hge
          · exact hdom kl hkl' q hq
      · rw [if_neg hlt]
        obtain ⟨r, hfold, hmem, hge, hdom⟩ := ih b
        refine ⟨r, hfold, ?_, hge, ?_⟩
        · rcases hmem with h | ⟨kl, hkl, hent⟩
          · exact Or.inl h
          · exact Or.inr ⟨kl, List.mem_cons_of_mem ij hkl, hent⟩
        · intro kl hkl q hq
          rcases List.mem_cons.mp hkl with rfl | hkl'
          · rw [hA] at hq
            injection hq with hq
            have hple : p.gold ≤ b.gold := Nat.not_lt.mp hlt
            exact hq ▸ Nat.le_trans hple hge
          · exact hdom kl hkl' q hq

/-- Helper: on a non-empty grid with an OPEN start cell the scan returns a
present result that is the start path or an in-bounds table entry, and that
dominates the gold of every in-bounds table entry. -/
theorem dyn_prog_core (setting : grid)
    (h1 : 0 < setting.rows) (h2 : 0 < setting.columns)
    (h4 : isRock (setting.get 0 0) = false) :
    ∃ r, greedy_gnomes_dyn_prog setting = some r ∧
      goodPath setting r ∧ validMovesB setting r.steps = true ∧
      (∀ i j, i < setting.rows → j < setting.columns →
        ∀ p, Atab setting i j = some p → p.gold ≤ r.gold) := by
  have h00 : dpTable setting 0 0 = some (path.start setting) := by
    rw [dpTable_eq_Atab setting 0 0 h1 h2]
    exact Atab_zero setting h4
  obtain ⟨r, hfold, hmem, _, hdom⟩ :=
    foldl_scan_spec (dpTable setting) (cellIdx setting) (path.start setting)
  have hres : greedy_gnomes_dyn_prog setting = some r := by
    rw [dyn_prog_eq_foldl, h00]
    exact hfold
  have hentry : ∀ ij : Nat × Nat, ij ∈ cellIdx setting → ∀ p,
      dpTable setting ij.1 ij.2 = some p →
      goodPath setting p ∧ validMovesB setting p.steps = true := by
    intro ij hij p hp
    obtain ⟨hbi, hbj⟩ := cellIdx_mem_bounds setting ij hij
    rw [dpTable_eq_Atab setting ij.1 ij.2 hbi hbj] at hp
    obtain ⟨hg, _, _, hv⟩ :=
      ((Atab_inv setting (ij.1 + ij.2) ij.1 ij.2 rfl hbi hbj).1) p hp
    exact ⟨hg, hv⟩
  refine ⟨r, hres, ?_, ?_, ?_⟩
  · rcases hmem with rfl | ⟨ij, hij, hent⟩
    · exact goodPath_start setting
    · exact (hentry ij hij r hent).1
  · rcases hmem with rfl | ⟨ij, hij, hent⟩
    · have hv0 : validMovesB setting (path.start setting).steps =
          okCellB setting (0, 0) := by
        simp [validMovesB, cellsFrom, path.start]
      rw [hv0, okCellB_iff]
      exact ⟨h1, h2, h4⟩
    · exact (hentry ij hij r hent).2
  · intro i j hbi hbj p hp
    have hp' : dpTable setting i j = some p := by
      rw [dpTable_eq_Atab setting i j hbi hbj]
      exact hp
    exact hdom (i, j) (mem_cellIdx setting i j hbi hbj) p hp'

/-- Helper: the dynamic-programming search's result bounds every valid
monotone path and is attained by its own valid move sequence. -/
theorem dyn_prog_max_gold (setting : grid)
    (h1 : 0 < setting.rows) (h2 : 0 < setting.columns)
    (h4 : isRock (setting.get 0 0) = false) :
    ∃ r, greedy_gnomes_dyn_prog setting = some r ∧
      (∀ ms, validMovesB setting ms = true →
        movesGold setting ms ≤ r.total_gold) ∧
      validMovesB setting r.steps = true ∧
      movesGold setting r.steps = r.total_gold := by
  obtain ⟨r, hres, hgood, hval, hdom⟩ := dyn_prog_core setting h1 h2 h4
  refine ⟨r, hres, ?_, hval, ?_⟩
  · intro ms hms
    have hok := validMoves_ok_replay setting ms hms
    rw [okCellB_iff] at hok
    have hrep : replay ms = ((replay ms).1, (replay ms).2) := rfl
    obtain ⟨p, hent, hle⟩ :=
      (Atab_inv setting ((replay ms).1 + (replay ms).2) (replay ms).1 (replay ms).2
        rfl hok.1 hok.2.1).2 ms hms hrep
    exact Nat.le_trans hle (hdom _ _ hok.1 hok.2.1 p hent)
  · exact hgood.2.2.2

/-- C2: on a non-empty grid with an OPEN start cell, the dynamic-programming
search returns a path whose total gold equals the maximum over all valid
monotone paths (sequences of RIGHT/DOWN moves from `(0,0)`, in bounds, never
entering ROCK, possibly stopping early): it is an upper bound for the gold
of every valid move sequence, and it is attained by the returned path's own
valid move sequence. -/
theorem dyn_prog_optimal (setting : grid)
    (h1 : 0 < setting.rows) (h2 : 0 < setting.columns)
    (h4 : isRock (setting.get 0 0) = false) :
    ∃ r, greedy_gnomes_dyn_prog setting = some r ∧
      (∀ ms, validMovesB setting ms = true →
        movesGold setting ms ≤ r.total_gold) ∧
      validMovesB setting r.steps = true ∧
      movesGold setting r.steps = r.total_gold :=
  dyn_prog_max_gold setting h1 h2 h4

/-- C2 witness: the dynamic-programming optimality statement instantiated at
the 2×2 example grid `[[1,2],[3,4]]`. -/
theorem dyn_prog_optimal_witness :
    (0 < gEx.rows ∧ 0 < gEx.columns ∧ isRock (gEx.get 0 0) = false) ∧
    (∃ r, greedy_gnomes_dyn_prog gEx = some r ∧
      (∀ ms, validMovesB gEx ms = true → movesGold gEx ms ≤ r.total_gold) ∧
      validMovesB gEx r.steps = true ∧
      movesGold gEx r.steps = r.total_gold) :=
  ⟨⟨by decide, by decide, by decide⟩,
    dyn_prog_optimal gEx (by decide) (by decide) (by decide)⟩

/-- C1: on every non-empty grid that is small enough for the exhaustive
search and whose start cell is OPEN, both algorithms return paths of equal
total gold. -/
theorem exhaustive_dyn_prog_agree (setting : grid)
    (h1 : 0 < setting.rows) (h2 : 0 < setting.columns)
    (h3 : setting.rows + setting.columns - 2 < 64)
    (h4 : isRock (setting.get 0 0) = false) :
    ∃ r, greedy_gnomes_dyn_prog setting = some r ∧
      (greedy_gnomes_exhaustive setting).total_gold = r.total_gold := by
  obtain ⟨hubE, hvalE, hattE⟩ := exhaustive_max_gold setting h1 h2 h3 h4
  obtain ⟨r, hres, hubD, hvalD, hattD⟩ := dyn_prog_max_gold setting h1 h2 h4
  refine ⟨r, hres, Nat.le_antisymm ?_ ?_⟩
  · have h := hubD _ hvalE
    rw [hattE] at h
    exact h
  · have h := hubE _ hvalD
    rw [hattD] at h
    exact h

/-- C1 witness: agreement instantiated at the 2×2 example grid. -/
theorem exhaustive_dyn_prog_agree_witness :
    (0 < gEx.rows ∧ 0 < gEx.columns ∧ gEx.rows + gEx.columns - 2 < 64 ∧
      isRock (gEx.get 0 0) = false) ∧
    (∃ r, greedy_gnomes_dyn_prog gEx = some r ∧
      (greedy_gnomes_exhaustive gEx).total_gold = r.total_gold) :=
  ⟨⟨by decide, by decide, by decide, by decide⟩,
    exhaustive_dyn_prog_agree gEx (by decide) (by decide) (by decide) (by decide)⟩

/-- C7: whenever the grid is non-empty and its start cell is not ROCK, the
filled table is present at `(0,0)` (holding the start path), so `best` is
initialised to a present value and the whole post-processing scan never
dereferences an absent optional: the function returns a present result. -/
theorem dp_start_present_safe (setting : grid)
    (h1 : 0 < setting.rows) (h2 : 0 < setting.columns)
    (h4 : isRock (setting.get 0 0) = false) :
    dpTable setting 0 0 = some (path.start setting) ∧
    (greedy_gnomes_dyn_prog setting).isSome = true := by
  refine ⟨?_, ?_⟩
  · rw [dpTable_eq_Atab setting 0 0 h1 h2]
    exact Atab_zero setting h4
  · obtain ⟨r, hres, _, _, _⟩ := dyn_prog_core setting h1 h2 h4
    rw [hres]
    rfl

/-- C7 witness: the safety statement instantiated at the 2×2 example
grid. -/
theorem dp_start_present_safe_witness :
    (0 < gEx.rows ∧ 0 < gEx.columns ∧ isRock (gEx.get 0 0) = false) ∧
    (dpTable gEx 0 0 = some (path.start gEx) ∧
      (greedy_gnomes_dyn_prog gEx).isSome = true) :=
  ⟨⟨by decide, by decide, by decide⟩,
    dp_start_present_safe gEx (by decide) (by decide) (by decide)⟩

/-- C8: every present in-bounds entry of the filled table holds a path whose
head is exactly its own cell; consequently, whenever the neighbour entry
above (resp. to the left) is present and the current cell is not ROCK, the
guarded DOWN (resp. RIGHT) extension step is valid and is taken, so
`from_above` (resp. `from_left`) is exactly that neighbour extended by one
step. -/
theorem dp_head_invariant (setting : grid) (i j : Nat)
    (hi : i < setting.rows) (hj : j < setting.columns) :
    (∀ p, dpTable setting i j = some p → p.row = i ∧ p.col = j) ∧
    (0 < i → isRock (setting.get i j) = false →
      ∀ q, dpTable setting (i - 1) j = some q →
        q.is_step_valid STEP_DIRECTION_DOWN = true ∧
        from_above (dpTable setting) i j = some (q.add_step STEP_DIRECTION_DOWN)) ∧
    (0 < j → isRock (setting.get i j) = false →
      ∀ q, dpTable setting i (j - 1) = some q →
        q.is_step_valid STEP_DIRECTION_RIGHT = true ∧
        from_left (dpTable setting) i j = some (q.add_step STEP_DIRECTION_RIGHT)) := by
  refine ⟨?_, ?_, ?_⟩
  · intro p hp
    rw [dpTable_eq_Atab setting i j hi hj] at hp
    obtain ⟨_, hr, hc, _⟩ := (Atab_inv setting (i + j) i j rfl hi hj).1 p hp
    exact ⟨hr, hc⟩
  · intro hipos hrock q hq0
    have hbi : i - 1 < setting.rows := by omega
    have hq := hq0
    rw [dpTable_eq_Atab setting (i - 1) j hbi hj] at hq
    obtain ⟨⟨hqs, _, _, _⟩, hqr, hqc, _⟩ :=
      (Atab_inv setting ((i - 1) + j) (i - 1) j rfl hbi hj).1 q hq
    have hok_ij : okCellB setting (i, j) = true := by
      rw [okCellB_iff]
      exact ⟨hi, hj, hrock⟩
    have hvalid : q.is_step_valid STEP_DIRECTION_DOWN = true := by
      rw [is_step_valid_down, hqs]
      rw [show ((q.row + 1 : Nat), q.col) = ((i : Nat), (j : Nat)) from by
        rw [hqc]; congr 1; omega]
      exact hok_ij
    refine ⟨hvalid, ?_⟩
    unfold from_above
    rw [if_pos hipos, hq0, Option.map_some']
    unfold stepIfValid
    rw [hvalid]
    simp
  · intro hjpos hrock q hq0
    have hbj : j - 1 < setting.columns := by omega
    have hq := hq0
    rw [dpTable_eq_Atab setting i (j - 1) hi hbj] at hq
    obtain ⟨⟨hqs, _, _, _⟩, hqr, hqc, _⟩ :=
      (Atab_inv setting (i + (j - 1)) i (j - 1) rfl hi hbj).1 q hq
    have hok_ij : okCellB setting (i, j) = true := by
      rw [okCellB_iff]
      exact ⟨hi, hj, hrock⟩
    have hvalid : q.is_step_valid STEP_DIRECTION_RIGHT = true := by
      rw [is_step_valid_right, hqs]
      rw [show ((q.row : Nat), q.col + 1) = ((i : Nat), (j : Nat)) from by
        rw [hqr]; congr 1; omega]
      exact hok_ij
    refine ⟨hvalid, ?_⟩
    unfold from_left
    rw [if_pos hjpos, hq0, Option.map_some']
    unfold stepIfValid
    rw [hvalid]
    simp

/-- C8 witness: the head/extension invariant instantiated at cell `(1,1)` of
the 2×2 example grid. -/
theorem dp_head_invariant_witness :
    (1 < gEx.rows ∧ 1 < gEx.columns) ∧
    ((∀ p, dpTable gEx 1 1 = some p → p.row = 1 ∧ p.col = 1) ∧
      (0 < 1 → isRock (gEx.get 1 1) = false →
        ∀ q, dpTable gEx (1 - 1) 1 = some q →
          q.is_step_valid STEP_DIRECTION_DOWN = true ∧
          from_above (dpTable gEx) 1 1 = some (q.add_step STEP_DIRECTION_DOWN)) ∧
      (0 < 1 → isRock (gEx.get 1 1) = false →
        ∀ q, dpTable gEx 1 (1 - 1) = some q →
          q.is_step_valid STEP_DIRECTION_RIGHT = true ∧
          from_left (dpTable gEx) 1 1 = some (q.add_step STEP_DIRECTION_RIGHT))) :=
  ⟨⟨by decide, by decide⟩, dp_head_invariant gEx 1 1 (by decide) (by decide)⟩

theorem Atab_match_eq (setting : grid) (i j : Nat)
    (hrock : isRock (setting.get i j) = false) :
    Atab setting i j =
      (match (if 0 < i then (Atab setting (i - 1) j).map
          (fun p => stepIfValid p STEP_DIRECTION_DOWN) else none),
        (if 0 < j then (Atab setting i (j - 1)).map
          (fun p => stepIfValid p STEP_DIRECTION_RIGHT) else none) with
       | some a, some l => some (if l.total_gold < a.total_gold then a else l)
       | some a, none => some a
       | none, some l => some l
       | none, none => dpInit setting i j) := by
  conv_lhs => rw [Atab]
  simp only [dite_eq_ite, hrock, Bool.false_eq_true, if_false]

/-- C4 (amended): at an in-bounds non-ROCK cell where both `from_above` and
`from_left` are present, the table entry is the one with strictly greater
total gold, and when their total golds are equal it is `from_left` (the
`else` branch of the comparison), not `from_above`. -/
theorem dp_choice_rule (setting : grid) (i j : Nat)
    (hi : i < setting.rows) (hj : j < setting.columns)
    (hrock : isRock (setting.get i j) = false) (a l : path)
    (ha : from_above (dpTable setting) i j = some a)
    (hl : from_left (dpTable setting) i j = some l) :
    dpTable setting i j = some (if l.total_gold < a.total_gold then a else l) ∧
    (a.total_gold = l.total_gold → dpTable setting i j = some l) := by
  have hipos : 0 < i := by
    by_contra h
    unfold from_above at ha
    rw [if_neg h] at ha
    cases ha
  have hjpos : 0 < j := by
    by_contra h
    unfold from_left at hl
    rw [if_neg h] at hl
    cases hl
  have hfa : (if 0 < i then (Atab setting (i - 1) j).map
      (fun p => stepIfValid p STEP_DIRECTION_DOWN) else none) = some a := by
    rw [if_pos hipos, ← dpTable_eq_Atab setting (i - 1) j (by omega) hj]
    unfold from_above at ha
    rw [if_pos hipos] at ha
    exact ha
  have hfl : (if 0 < j then (Atab setting i (j - 1)).map
      (fun p => stepIfValid p STEP_DIRECTION_RIGHT) else none) = some l := by
    rw [if_pos hjpos, ← dpTable_eq_Atab setting i (j - 1) hi (by omega)]
    unfold from_left at hl
    rw [if_pos hjpos] at hl
    exact hl
  rw [dpTable_eq_Atab setting i j hi hj, Atab_match_eq setting i j hrock, hfa, hfl]
  refine ⟨rfl, ?_⟩
  intro heq
  have hnlt : ¬ l.total_gold < a.total_gold := by omega
  simp only [if_neg hnlt]

/-- C4 witness: the amended choice rule instantiated at cell `(1,1)` of the
all-OPEN zero-gold 2×2 grid, where both composed candidates are present with
equal gold and the entry is `from_left`. -/
theorem dp_choice_rule_witness :
    (1 < gTie.rows ∧ 1 < gTie.columns ∧ isRock (gTie.get 1 1) = false ∧
      from_above (dpTable gTie) 1 1 =
        some ⟨gTie, [STEP_DIRECTION_RIGHT, STEP_DIRECTION_DOWN], 1, 1, 0⟩ ∧
      from_left (dpTable gTie) 1 1 =
        some ⟨gTie, [STEP_DIRECTION_DOWN, STEP_DIRECTION_RIGHT], 1, 1, 0⟩) ∧
    (dpTable gTie 1 1 = some (if
        (⟨gTie, [STEP_DIRECTION_DOWN, STEP_DIRECTION_RIGHT], 1, 1, 0⟩ : path).total_gold <
        (⟨gTie, [STEP_DIRECTION_RIGHT, STEP_DIRECTION_DOWN], 1, 1, 0⟩ : path).total_gold then
        ⟨gTie, [STEP_DIRECTION_RIGHT, STEP_DIRECTION_DOWN], 1, 1, 0⟩
      else ⟨gTie, [STEP_DIRECTION_DOWN, STEP_DIRECTION_RIGHT], 1, 1, 0⟩) ∧
      ((⟨gTie, [STEP_DIRECTION_RIGHT, STEP_DIRECTION_DOWN], 1, 1, 0⟩ : path).total_gold =
        (⟨gTie, [STEP_DIRECTION_DOWN, STEP_DIRECTION_RIGHT], 1, 1, 0⟩ : path).total_gold →
        dpTable gTie 1 1 =
          some ⟨gTie, [STEP_DIRECTION_DOWN, STEP_DIRECTION_RIGHT], 1, 1, 0⟩)) :=
  ⟨⟨by decide, by decide, by decide, by decide, by decide⟩,
    dp_choice_rule gTie 1 1 (by decide) (by decide) (by decide) _ _
      (by decide) (by decide)⟩

theorem pathOkB_of (setting : grid) (p : path) (hgood : goodPath setting p)
    (hval : validMovesB setting p.steps = true) : pathOkB p = true := by
  obtain ⟨hs, _, hr, _⟩ := hgood
  unfold pathOkB
  rw [hs, hval, hr]
  simp

/-- C9 (amended): with the preconditions strengthened to include an OPEN
start cell, every path returned by either algorithm visits only in-bounds
non-ROCK cells, and replaying its move sequence from `(0,0)` reproduces its
reported head position.  (As stated — without the OPEN-start requirement —
the claim fails, see the counterexample: on an all-ROCK grid the exhaustive
search returns the start path, which rests on a ROCK cell.) -/
theorem returned_paths_valid (setting : grid)
    (h1 : 0 < setting.rows) (h2 : 0 < setting.columns)
    (h3 : setting.rows + setting.columns - 2 < 64)
    (h4 : isRock (setting.get 0 0) = false) :
    pathOkB (greedy_gnomes_exhaustive setting) = true ∧
    ∃ r, greedy_gnomes_dyn_prog setting = some r ∧ pathOkB r = true := by
  constructor
  · obtain ⟨_, hgood, _, _⟩ := exhaustive_core setting
    obtain ⟨_, hval, _⟩ := exhaustive_max_gold setting h1 h2 h3 h4
    exact pathOkB_of setting _ hgood hval
  · obtain ⟨r, hres, hgood, hval, _⟩ := dyn_prog_core setting h1 h2 h4
    exact ⟨r, hres, pathOkB_of setting r hgood hval⟩

/-- C9 witness: the validity statement instantiated at the 2×2 example
grid. -/
theorem returned_paths_valid_witness :
    (0 < gEx.rows ∧ 0 < gEx.columns ∧ gEx.rows + gEx.columns - 2 < 64 ∧
      isRock (gEx.get 0 0) = false) ∧
    (pathOkB (greedy_gnomes_exhaustive gEx) = true ∧
      ∃ r, greedy_gnomes_dyn_prog gEx = some r ∧ pathOkB r = true) :=
  ⟨⟨by decide, by decide, by decide, by decide⟩,
    returned_paths_valid gEx (by decide) (by decide) (by decide) (by decide)⟩
